import Mathlib

/-!
# Verification of the `find_similar` near-duplicate image grouping core

This file gives a shallow embedding of the perceptual-hash similarity
grouping core of the repository (`find_similar.py` and
`find_similar_fast_delete.py`) and proves (or refutes) the specified
properties of that core.

Modelling conventions:
* An image reference is a file path (`String`).
* A perceptual fingerprint (`imagehash.ImageHash`) is its bit matrix
  (`hash1.hash`), embedded as a list of rows of booleans.
* Python floats are embedded as rationals (`ℚ`); the similarity values
  `100 * (1 - dist / max_bits)` are dyadic rationals in actual runs.
* Python's ordered `dict` becomes an association list; Python sets that the
  algorithm builds (`groups` entries, `used`) become duplicate-free lists in
  insertion order (only membership and a designated iteration order are used).
* Fallible external calls (`Image.open`/`phash`, `os.remove`) are embedded as
  parameters returning `Option` / success booleans; the `try/except` logic
  around them is part of the embedded code.
-/

namespace FishScripts

/-- An Image Reference: a file path naming one image. -/
abbrev ImgRef := String

/-- A perceptual fingerprint: the bit matrix of an `imagehash.ImageHash`
(the `hash` attribute, a 2-D boolean array; 8×8 for the default phash). -/
structure Fingerprint where
  hash : List (List Bool)
deriving DecidableEq

/-- Hamming distance between two fingerprints: the number of positions at
which the flattened bit matrices differ (`hash1 - hash2` in `imagehash`). -/
def hammingDistance (h1 h2 : Fingerprint) : Nat :=
  ((h1.hash.zip h2.hash).map
    (fun r => ((r.1.zip r.2).filter (fun p => p.1 != p.2)).length)).sum

/-- `hamming_similarity` from `find_similar.py` lines 14–18:
similarity in percent based on Hamming distance,
`100 * (1 - dist / max_bits)` with `max_bits = len(hash1.hash) ** 2`. -/
def hamming_similarity (hash1 hash2 : Fingerprint) : ℚ :=
  let dist : ℚ := (hammingDistance hash1 hash2 : ℚ)
  let max_bits : ℚ := ((hash1.hash.length : ℚ)) ^ 2
  100 * (1 - dist / max_bits)

/-- The Fingerprint Table `img_hashes`: an insertion-ordered mapping from
Image Reference to Fingerprint (a Python `dict`). -/
abbrev FingerprintTable := List (ImgRef × Fingerprint)

/-- Lookup `img_hashes[i]` (total on the table's keys, which is the only
place the code uses it). -/
def lookupFp (tbl : FingerprintTable) (i : ImgRef) : Fingerprint :=
  (tbl.lookup i).getD ⟨[]⟩

/-- The merge test inside `group_similar_hashes`: `sim >= threshold` for the
similarity of the two looked-up fingerprints. -/
def qualifies (tbl : FingerprintTable) (threshold : ℚ) (a b : ImgRef) : Bool :=
  decide (threshold ≤ hamming_similarity (lookupFp tbl a) (lookupFp tbl b))

/-- `itertools.combinations(items, 2)`: all unordered pairs of distinct
positions, in order `(x1,x2), (x1,x3), …, (x1,xn), (x2,x3), …`. -/
def pairsOf : List ImgRef → List (ImgRef × ImgRef)
  | [] => []
  | x :: xs => xs.map (fun y => (x, y)) ++ pairsOf xs

/-- Adding one element to a Python set, with insertion order as the modelled
iteration order. -/
def setInsert (g : List ImgRef) (x : ImgRef) : List ImgRef :=
  if x ∈ g then g else g ++ [x]

/-- The `for g in groups: if img1 in g or img2 in g: g.update({img1, img2});
break / else: groups.append({img1, img2})` block: update the first group
containing either element, or append a fresh two-element group. -/
def mergeFirst (a b : ImgRef) : List (List ImgRef) → List (List ImgRef)
  | [] => [setInsert (setInsert [] a) b]
  | g :: gs =>
      if a ∈ g ∨ b ∈ g then setInsert (setInsert g a) b :: gs
      else g :: mergeFirst a b gs

/-- The mutable state of the grouping loop: the ordered list of groups and
the `used` set. -/
structure GroupState where
  groups : List (List ImgRef)
  used : List ImgRef
deriving DecidableEq

/-- One iteration of the pair loop in `group_similar_hashes`
(lines 29–40): skip if either element is `used`; otherwise merge when the
similarity meets the threshold, marking the second element as used. -/
def processPair (tbl : FingerprintTable) (threshold : ℚ)
    (st : GroupState) (p : ImgRef × ImgRef) : GroupState :=
  if p.1 ∈ st.used ∨ p.2 ∈ st.used then st
  else if qualifies tbl threshold p.1 p.2 then
    { groups := mergeFirst p.1 p.2 st.groups, used := st.used ++ [p.2] }
  else st

/-- The whole pair loop: fold `processPair` over the enumerated pairs. -/
def runPairs (tbl : FingerprintTable) (threshold : ℚ)
    (ps : List (ImgRef × ImgRef)) (st : GroupState) : GroupState :=
  ps.foldl (processPair tbl threshold) st

/-- `group_similar_hashes` from `find_similar.py` lines 20–47: run the pair
loop over all pairs of keys, then append a singleton group for every key not
present in any group. -/
def group_similar_hashes (tbl : FingerprintTable) (threshold : ℚ) :
    List (List ImgRef) :=
  let items := tbl.map Prod.fst
  let st := runPairs tbl threshold (pairsOf items) ⟨[], []⟩
  let grouped := st.groups.flatten
  st.groups ++ (items.filter (fun i => !(decide (i ∈ grouped)))).map (fun i => [i])

/-- The hashing loop of `main` (lines 72–78): build `img_hashes` in file
order, skipping (with a log message) every file whose decode raises.  The
fallible external call `phash(Image.open(path))` is the parameter
`hashOf`. -/
def buildTable (files : List ImgRef) (hashOf : ImgRef → Option Fingerprint) :
    FingerprintTable :=
  files.filterMap (fun path => (hashOf path).map (fun h => (path, h)))

/-- The duplicate-pair collection of `find_similar_fast_delete.py`
lines 86–92: for every group with more than one member, keep the first
member and pair it with each of the rest. -/
def duplicatePairs (groups : List (List ImgRef)) : List (ImgRef × ImgRef) :=
  groups.foldl (fun acc group =>
    match group with
    | keep :: d :: rest => acc ++ ((d :: rest).map (fun dup => (keep, dup)))
    | _ => acc) []

/-- The `Duplicates detected` figure printed by the report-only variant
(`find_similar.py` line 87): `total - len(groups)`. -/
def reportSummaryDuplicates (files : List ImgRef)
    (hashOf : ImgRef → Option Fingerprint) (threshold : ℚ) : ℤ :=
  (files.length : ℤ) -
    ((group_similar_hashes (buildTable files hashOf) threshold).length : ℤ)

/-- The `Duplicates detected` figure printed by the delete variant
(`find_similar_fast_delete.py` line 97): `len(duplicates)`. -/
def deleteSummaryDuplicates (files : List ImgRef)
    (hashOf : ImgRef → Option Fingerprint) (threshold : ℚ) : ℤ :=
  ((duplicatePairs (group_similar_hashes (buildTable files hashOf) threshold)).length : ℤ)

/-- The deletion pass of `find_similar_fast_delete.py` lines 103–115 acting
on the set of files on disk: in dry-run mode nothing is removed; otherwise
each delete candidate is removed, a failed `os.remove` (modelled by
`removeOk` returning `false`) being caught and skipped. -/
def runDeletion (dryRun : Bool) (removeOk : ImgRef → Bool)
    (dups : List (ImgRef × ImgRef)) (disk : List ImgRef) : List ImgRef :=
  if dryRun then disk
  else dups.foldl (fun d p => if removeOk p.2 then d.erase p.2 else d) disk

/-! ## Reference algorithm written from the specification's words (for the
refinement claim)

The functions below follow §4.2 of the specification sentence by sentence:
"For each pair (a, b) in enumeration order: skip the pair if a or b is
already in `used`. Otherwise compute Similarity Percentage between their
Fingerprints. If it meets or exceeds the threshold: search existing Groups
in order for one containing a or b; if found, add both a and b to that
Group; if none found, start a new Group {a, b}. In either branch, add b
(only) to `used`. … After all pairs are processed, any Image Reference not
present in any Group becomes its own singleton Group."  Pair enumeration
order follows the iteration order of the table's keys, shared with the code
embedding through `pairsOf`. -/

/-- Spec reference: "search existing Groups in order for one containing a or
b" — returns the groups before the found one, the found group, and the
groups after it, or `none` when no Group contains either element. -/
def specSearch (a b : ImgRef) :
    List (List ImgRef) → Option (List (List ImgRef) × List ImgRef × List (List ImgRef))
  | [] => none
  | g :: gs =>
      if a ∈ g ∨ b ∈ g then some ([], g, gs)
      else (specSearch a b gs).map (fun r => (g :: r.1, r.2.1, r.2.2))

/-- Spec reference: one step of §4.2 item 3 for the pair `(a, b)`. -/
def specStep (tbl : FingerprintTable) (threshold : ℚ)
    (st : GroupState) (p : ImgRef × ImgRef) : GroupState :=
  if p.1 ∈ st.used ∨ p.2 ∈ st.used then st
  else if threshold ≤ hamming_similarity (lookupFp tbl p.1) (lookupFp tbl p.2) then
    { groups :=
        match specSearch p.1 p.2 st.groups with
        | some (before, g, after) =>
            before ++ (setInsert (setInsert g p.1) p.2 :: after)
        | none => st.groups ++ [setInsert (setInsert [] p.1) p.2],
      used := st.used ++ [p.2] }
  else st

/-- Spec reference: process each pair in enumeration order. -/
def specScan (tbl : FingerprintTable) (threshold : ℚ) :
    List (ImgRef × ImgRef) → GroupState → GroupState
  | [], st => st
  | p :: ps, st => specScan tbl threshold ps (specStep tbl threshold st p)

/-- Spec reference: "any Image Reference not present in any Group becomes
its own singleton Group". -/
def specSingletonPass (gs : List (List ImgRef)) : List ImgRef → List (List ImgRef)
  | [] => []
  | i :: is =>
      if gs.any (fun g => g.contains i) then specSingletonPass gs is
      else [i] :: specSingletonPass gs is

/-- Spec reference: the whole grouping algorithm of §4.2. -/
def specGrouping (tbl : FingerprintTable) (threshold : ℚ) : List (List ImgRef) :=
  let items := tbl.map Prod.fst
  let st := specScan tbl threshold (pairsOf items) ⟨[], []⟩
  st.groups ++ specSingletonPass st.groups items

/-! ## Concrete tables used by counterexamples and witnesses -/

/-- A 4×4 all-false row. -/
def row0 : List Bool := [false, false, false, false]

/-- 4×4 fingerprint with bits 1, 4, 5, 6 set. -/
def cxA : Fingerprint := ⟨[[false, true, false, false], [true, true, true, false], row0, row0]⟩

/-- 4×4 fingerprint with no bits set. -/
def cxB : Fingerprint := ⟨[row0, row0, row0, row0]⟩

/-- 4×4 fingerprint with bits 0, 1 set. -/
def cxC : Fingerprint := ⟨[[true, true, false, false], row0, row0, row0]⟩

/-- 4×4 fingerprint with bits 0, 2 set. -/
def cxD : Fingerprint := ⟨[[true, false, true, false], row0, row0, row0]⟩

/-- The four-image table refuting threshold monotonicity: pairwise
similarities are a–b 75, a–c 75, a–d 62.5, b–c 87.5, b–d 87.5, c–d 87.5. -/
def c4Table : FingerprintTable := [("a", cxA), ("b", cxB), ("c", cxC), ("d", cxD)]

/-- A 2×2 fingerprint with all bits set. -/
def fpOnes : Fingerprint := ⟨[[true, true], [true, true]]⟩

/-- A 2×2 fingerprint differing from `fpOnes` in exactly one bit
(similarity 75). -/
def fpThree : Fingerprint := ⟨[[true, true], [true, false]]⟩

/-- A hashing function for which file "a" fails to decode and every other
file hashes to `fpOnes`. -/
def failA : ImgRef → Option Fingerprint :=
  fun f => if f = "a" then none else some fpOnes

/-- Two-image table whose images have similarity exactly 75. -/
def c6Table : FingerprintTable := [("a", fpOnes), ("b", fpThree)]

/-- The (keep, delete) pairs contributed by one group: nothing unless the
group has more than one member, else its first member paired with each of
the rest.  Restatement of the per-group body of the `duplicates` loop. -/
def dupPairsOfGroup : List ImgRef → List (ImgRef × ImgRef)
  | keep :: d :: rest => (d :: rest).map (fun dup => (keep, dup))
  | _ => []

/-- A table with two bitwise-identical fingerprints. -/
def c3Table : FingerprintTable := [("a", fpOnes), ("b", fpOnes)]

/-! ## Predicates used by the verification -/

/-- The structural invariant of the grouping loop: every group is a
nonempty duplicate-free list, and the groups are pairwise disjoint. -/
def GoodState (st : GroupState) : Prop :=
  (∀ g ∈ st.groups, g ≠ [] ∧ g.Nodup) ∧ st.groups.Pairwise List.Disjoint

/-- A similarity edge inside the group `g`: both endpoints are members and
the pair meets the threshold (in the orientation the loop computed, or the
reverse). -/
def connEdge (tbl : FingerprintTable) (t : ℚ) (g : List ImgRef)
    (u v : ImgRef) : Prop :=
  u ∈ g ∧ v ∈ g ∧ (qualifies tbl t u v = true ∨ qualifies tbl t v u = true)

/-- A group is connected when any two members are linked by a chain of
members whose consecutive pairs are similarity edges. -/
def ConnectedGroup (tbl : FingerprintTable) (t : ℚ) (g : List ImgRef) : Prop :=
  ∀ x ∈ g, ∀ y ∈ g, Relation.ReflTransGen (connEdge tbl t g) x y

/-! ## Basic lemmas about the building blocks -/

theorem mem_setInsert {g : List ImgRef} {x y : ImgRef} :
    x ∈ setInsert g y ↔ x = y ∨ x ∈ g := by
  unfold setInsert
  split
  · constructor
    · exact fun h => Or.inr h
    · rintro (rfl | h) <;> assumption
  · simp [List.mem_append, or_comm]

theorem subset_setInsert (g : List ImgRef) (y : ImgRef) : g ⊆ setInsert g y := by
  intro x hx
  exact mem_setInsert.mpr (Or.inr hx)

theorem self_mem_setInsert (g : List ImgRef) (y : ImgRef) : y ∈ setInsert g y :=
  mem_setInsert.mpr (Or.inl rfl)

theorem setInsert_nodup {g : List ImgRef} (h : g.Nodup) (y : ImgRef) :
    (setInsert g y).Nodup := by
  unfold setInsert
  split
  · exact h
  · next hy => simpa [List.nodup_append] using ⟨h, fun hmem => hy hmem⟩

theorem setInsert_of_mem {g : List ImgRef} {x : ImgRef} (h : x ∈ g) :
    setInsert g x = g := if_pos h

theorem setInsert_ne_nil (g : List ImgRef) (y : ImgRef) : setInsert g y ≠ [] := by
  intro hnil
  have := self_mem_setInsert g y
  rw [hnil] at this
  exact absurd this (List.not_mem_nil y)

/-- Both elements end up together in some group after a merge. -/
theorem mergeFirst_mem_both (a b : ImgRef) (gs : List (List ImgRef)) :
    ∃ g ∈ mergeFirst a b gs, a ∈ g ∧ b ∈ g := by
  induction gs with
  | nil =>
      refine ⟨setInsert (setInsert [] a) b, by simp [mergeFirst], ?_, ?_⟩
      · exact subset_setInsert _ _ (self_mem_setInsert _ _)
      · exact self_mem_setInsert _ _
  | cons g gs ih =>
      by_cases hg : a ∈ g ∨ b ∈ g
      · refine ⟨setInsert (setInsert g a) b, by simp [mergeFirst, hg], ?_, ?_⟩
        · exact subset_setInsert _ _ (self_mem_setInsert _ _)
        · exact self_mem_setInsert _ _
      · obtain ⟨g', hg', ha, hb⟩ := ih
        exact ⟨g', by simp [mergeFirst, hg, hg'], ha, hb⟩

/-- Every existing group survives a merge as a subset of some new group. -/
theorem mergeFirst_grow (a b : ImgRef) {gs : List (List ImgRef)} {g : List ImgRef}
    (hg : g ∈ gs) : ∃ g' ∈ mergeFirst a b gs, g ⊆ g' := by
  induction gs with
  | nil => cases hg
  | cons h gs ih =>
      by_cases hh : a ∈ h ∨ b ∈ h
      · rcases List.mem_cons.mp hg with rfl | hmem
        · exact ⟨setInsert (setInsert g a) b, by simp [mergeFirst, hh],
            fun x hx => subset_setInsert _ _ (subset_setInsert _ _ hx)⟩
        · exact ⟨g, by simp [mergeFirst, hh, hmem], fun x hx => hx⟩
      · rcases List.mem_cons.mp hg with rfl | hmem
        · exact ⟨g, by simp [mergeFirst, hh], fun x hx => hx⟩
        · obtain ⟨g', hg', hsub⟩ := ih hmem
          exact ⟨g', by simp [mergeFirst, hh, hg'], hsub⟩

/-- Elements present after a merge were present before, or are one of the
merged pair. -/
theorem mergeFirst_flatten_sub {a b x : ImgRef} {gs : List (List ImgRef)}
    (hx : x ∈ (mergeFirst a b gs).flatten) :
    x = a ∨ x = b ∨ x ∈ gs.flatten := by
  induction gs with
  | nil =>
      simp only [mergeFirst, List.flatten] at hx
      rcases List.mem_append.mp hx with h | h
      · rcases mem_setInsert.mp h with rfl | h2
        · exact Or.inr (Or.inl rfl)
        · rcases mem_setInsert.mp h2 with rfl | h3
          · exact Or.inl rfl
          · cases h3
      · simp at h
  | cons g gs ih =>
      by_cases hg : a ∈ g ∨ b ∈ g
      · simp only [mergeFirst, if_pos hg, List.flatten_cons] at hx
        rcases List.mem_append.mp hx with h | h
        · rcases mem_setInsert.mp h with rfl | h2
          · exact Or.inr (Or.inl rfl)
          · rcases mem_setInsert.mp h2 with rfl | h3
            · exact Or.inl rfl
            · exact Or.inr (Or.inr (by simp [List.flatten_cons, h3]))
        · exact Or.inr (Or.inr (by
            rw [List.flatten_cons]; exact List.mem_append.mpr (Or.inr h)))
      · simp only [mergeFirst, if_neg hg, List.flatten_cons] at hx
        rcases List.mem_append.mp hx with h | h
        · exact Or.inr (Or.inr (by
            rw [List.flatten_cons]; exact List.mem_append.mpr (Or.inl h)))
        · rcases ih h with h1 | h1 | h1
          · exact Or.inl h1
          · exact Or.inr (Or.inl h1)
          · exact Or.inr (Or.inr (by
              rw [List.flatten_cons]; exact List.mem_append.mpr (Or.inr h1)))

theorem goodState_nil : GoodState ⟨[], []⟩ := by
  constructor
  · intro g hg; cases hg
  · exact List.Pairwise.nil

/-- A merge preserves nonemptiness and freedom from duplicates of every
group. -/
theorem mergeFirst_wf {gs : List (List ImgRef)} (a b : ImgRef)
    (h : ∀ g ∈ gs, g ≠ [] ∧ g.Nodup) :
    ∀ g ∈ mergeFirst a b gs, g ≠ [] ∧ g.Nodup := by
  induction gs with
  | nil =>
      intro g hg
      simp only [mergeFirst] at hg
      rcases List.mem_singleton.mp hg with rfl
      exact ⟨setInsert_ne_nil _ _, setInsert_nodup (setInsert_nodup List.nodup_nil a) b⟩
  | cons g0 gs ih =>
      intro g hg
      by_cases hm : a ∈ g0 ∨ b ∈ g0
      · simp only [mergeFirst, if_pos hm] at hg
        rcases List.mem_cons.mp hg with rfl | hmem
        · exact ⟨setInsert_ne_nil _ _,
            setInsert_nodup (setInsert_nodup (h g0 (List.mem_cons_self _ _)).2 a) b⟩
        · exact h g (List.mem_cons_of_mem _ hmem)
      · simp only [mergeFirst, if_neg hm] at hg
        rcases List.mem_cons.mp hg with rfl | hmem
        · exact h g (List.mem_cons_self _ _)
        · exact ih (fun g' hg' => h g' (List.mem_cons_of_mem _ hg')) g hmem

/-- A merge whose second element is not yet grouped preserves pairwise
disjointness of the groups. -/
theorem mergeFirst_disjoint {gs : List (List ImgRef)} {a b : ImgRef}
    (hb : b ∉ gs.flatten) (h : gs.Pairwise List.Disjoint) :
    (mergeFirst a b gs).Pairwise List.Disjoint := by
  induction gs with
  | nil => simp [mergeFirst]
  | cons g0 gs ih =>
      have hb0 : b ∉ g0 := fun hmem => hb (by
        rw [List.flatten_cons]; exact List.mem_append.mpr (Or.inl hmem))
      have hbtail : b ∉ gs.flatten := fun hmem => hb (by
        rw [List.flatten_cons]; exact List.mem_append.mpr (Or.inr hmem))
      rcases List.pairwise_cons.mp h with ⟨hdis, htail⟩
      by_cases hm : a ∈ g0 ∨ b ∈ g0
      · have ha0 : a ∈ g0 := hm.resolve_right hb0
        simp only [mergeFirst, if_pos hm]
        refine List.pairwise_cons.mpr ⟨?_, htail⟩
        intro g' hg' x hx hx'
        rcases mem_setInsert.mp hx with rfl | hx2
        · exact hbtail (List.mem_flatten.mpr ⟨g', hg', hx'⟩)
        · rcases mem_setInsert.mp hx2 with rfl | hx3
          · exact hdis g' hg' ha0 hx'
          · exact hdis g' hg' hx3 hx'
      · simp only [mergeFirst, if_neg hm]
        refine List.pairwise_cons.mpr ⟨?_, ih hbtail htail⟩
        intro g' hg' x hx hx'
        have hx'' : x ∈ (mergeFirst a b gs).flatten := List.mem_flatten.mpr ⟨g', hg', hx'⟩
        rcases mergeFirst_flatten_sub hx'' with rfl | rfl | hmem
        · exact hm (Or.inl hx)
        · exact hb0 hx
        · obtain ⟨g'', hg'', hxg''⟩ := List.mem_flatten.mp hmem
          exact hdis g'' hg'' hx hxg''

/-- When the first element is already in some group and the second is in
none, the merge extends that very group with both elements. -/
theorem mergeFirst_extends {gs : List (List ImgRef)} {a b : ImgRef}
    {gx : List ImgRef} (hgx : gx ∈ gs) (ha : a ∈ gx) (hb : b ∉ gs.flatten)
    (h : gs.Pairwise List.Disjoint) :
    ∃ g'' ∈ mergeFirst a b gs, gx ⊆ g'' ∧ a ∈ g'' ∧ b ∈ g'' := by
  induction gs with
  | nil => cases hgx
  | cons g0 gs ih =>
      have hb0 : b ∉ g0 := fun hmem => hb (by
        rw [List.flatten_cons]; exact List.mem_append.mpr (Or.inl hmem))
      have hbtail : b ∉ gs.flatten := fun hmem => hb (by
        rw [List.flatten_cons]; exact List.mem_append.mpr (Or.inr hmem))
      rcases List.pairwise_cons.mp h with ⟨hdis, htail⟩
      by_cases hm : a ∈ g0 ∨ b ∈ g0
      · have ha0 : a ∈ g0 := hm.resolve_right hb0
        have hgx0 : gx = g0 := by
          rcases List.mem_cons.mp hgx with rfl | hmem
          · rfl
          · exact absurd ha0 (fun h0 => hdis gx hmem h0 ha)
        subst hgx0
        refine ⟨setInsert (setInsert gx a) b, by simp [mergeFirst, hm], ?_, ?_, ?_⟩
        · exact fun x hx => subset_setInsert _ _ (subset_setInsert _ _ hx)
        · exact subset_setInsert _ _ (self_mem_setInsert _ _)
        · exact self_mem_setInsert _ _
      · have hgx' : gx ∈ gs := by
          rcases List.mem_cons.mp hgx with rfl | hmem
          · exact absurd (Or.inl ha) hm
          · exact hmem
        obtain ⟨g'', hg'', hsub, ha'', hb''⟩ := ih hgx' hbtail htail
        exact ⟨g'', by simp [mergeFirst, hm, hg''], hsub, ha'', hb''⟩

/-! ### Case equations for one loop iteration -/

theorem processPair_skip {tbl : FingerprintTable} {t : ℚ} {st : GroupState}
    {p : ImgRef × ImgRef} (h : p.1 ∈ st.used ∨ p.2 ∈ st.used) :
    processPair tbl t st p = st := by
  simp [processPair, h]

theorem processPair_noqual {tbl : FingerprintTable} {t : ℚ} {st : GroupState}
    {p : ImgRef × ImgRef} (h : ¬(p.1 ∈ st.used ∨ p.2 ∈ st.used))
    (hq : qualifies tbl t p.1 p.2 = false) :
    processPair tbl t st p = st := by
  simp [processPair, h, hq]

theorem processPair_merge {tbl : FingerprintTable} {t : ℚ} {st : GroupState}
    {p : ImgRef × ImgRef} (h : ¬(p.1 ∈ st.used ∨ p.2 ∈ st.used))
    (hq : qualifies tbl t p.1 p.2 = true) :
    processPair tbl t st p =
      ⟨mergeFirst p.1 p.2 st.groups, st.used ++ [p.2]⟩ := by
  simp [processPair, h, hq]

/-- The step either leaves the state alone or performs the merge. -/
theorem processPair_cases (tbl : FingerprintTable) (t : ℚ) (st : GroupState)
    (p : ImgRef × ImgRef) :
    processPair tbl t st p = st ∨
      (¬(p.1 ∈ st.used ∨ p.2 ∈ st.used) ∧ qualifies tbl t p.1 p.2 = true ∧
        processPair tbl t st p = ⟨mergeFirst p.1 p.2 st.groups, st.used ++ [p.2]⟩) := by
  by_cases h : p.1 ∈ st.used ∨ p.2 ∈ st.used
  · exact Or.inl (processPair_skip h)
  · cases hq : qualifies tbl t p.1 p.2 with
    | false => exact Or.inl (processPair_noqual h hq)
    | true => exact Or.inr ⟨h, rfl, processPair_merge h hq⟩

/-! ### Generic facts about the pair loop -/

theorem runPairs_nil (tbl : FingerprintTable) (t : ℚ) (st : GroupState) :
    runPairs tbl t [] st = st := rfl

theorem runPairs_cons (tbl : FingerprintTable) (t : ℚ) (p : ImgRef × ImgRef)
    (ps : List (ImgRef × ImgRef)) (st : GroupState) :
    runPairs tbl t (p :: ps) st = runPairs tbl t ps (processPair tbl t st p) := rfl

theorem runPairs_append (tbl : FingerprintTable) (t : ℚ)
    (ps qs : List (ImgRef × ImgRef)) (st : GroupState) :
    runPairs tbl t (ps ++ qs) st = runPairs tbl t qs (runPairs tbl t ps st) :=
  List.foldl_append _ _ _ _

/-- The used set only grows along the loop. -/
theorem used_mono_step (tbl : FingerprintTable) (t : ℚ) (st : GroupState)
    (p : ImgRef × ImgRef) : st.used ⊆ (processPair tbl t st p).used := by
  rcases processPair_cases tbl t st p with h | ⟨_, _, h⟩ <;> rw [h]
  · exact fun x hx => hx
  · exact fun x hx => List.mem_append.mpr (Or.inl hx)

theorem used_mono_run (tbl : FingerprintTable) (t : ℚ)
    (ps : List (ImgRef × ImgRef)) (st : GroupState) :
    st.used ⊆ (runPairs tbl t ps st).used := by
  induction ps generalizing st with
  | nil => exact fun x hx => hx
  | cons p ps ih =>
      rw [runPairs_cons]
      exact fun x hx => ih _ (used_mono_step tbl t st p hx)

/-- Everything added to the used set along the loop is a second component of
a processed pair. -/
theorem used_run_sub (tbl : FingerprintTable) (t : ℚ)
    (ps : List (ImgRef × ImgRef)) (st : GroupState) :
    (runPairs tbl t ps st).used ⊆ st.used ++ ps.map Prod.snd := by
  induction ps generalizing st with
  | nil => exact fun x hx => by simpa using hx
  | cons p ps ih =>
      rw [runPairs_cons]
      intro x hx
      have := ih (processPair tbl t st p) hx
      rcases List.mem_append.mp this with h | h
      · rcases processPair_cases tbl t st p with hc | ⟨_, _, hc⟩ <;> rw [hc] at h
        · exact List.mem_append.mpr (Or.inl h)
        · rcases List.mem_append.mp h with h1 | h1
          · exact List.mem_append.mpr (Or.inl h1)
          · refine List.mem_append.mpr (Or.inr ?_)
            simp only [List.map_cons, List.mem_cons]
            exact Or.inl (List.mem_singleton.mp h1)
      · refine List.mem_append.mpr (Or.inr ?_)
        simp only [List.map_cons, List.mem_cons]
        exact Or.inr h


/-- Group membership persists: every group of an intermediate state is
contained in some group of any later state. -/
theorem grow_step (tbl : FingerprintTable) (t : ℚ) (st : GroupState)
    (p : ImgRef × ImgRef) {g : List ImgRef} (hg : g ∈ st.groups) :
    ∃ g' ∈ (processPair tbl t st p).groups, g ⊆ g' := by
  rcases processPair_cases tbl t st p with h | ⟨_, _, h⟩ <;> rw [h]
  · exact ⟨g, hg, fun x hx => hx⟩
  · exact mergeFirst_grow p.1 p.2 hg

theorem grow_run (tbl : FingerprintTable) (t : ℚ)
    (ps : List (ImgRef × ImgRef)) (st : GroupState) {g : List ImgRef}
    (hg : g ∈ st.groups) : ∃ g' ∈ (runPairs tbl t ps st).groups, g ⊆ g' := by
  induction ps generalizing st g with
  | nil => exact ⟨g, hg, fun x hx => hx⟩
  | cons p ps ih =>
      rw [runPairs_cons]
      obtain ⟨g1, hg1, hsub1⟩ := grow_step tbl t st p hg
      obtain ⟨g2, hg2, hsub2⟩ := ih _ hg1
      exact ⟨g2, hg2, fun x hx => hsub2 (hsub1 hx)⟩

/-- Elements grouped by the loop were grouped before or occur in a processed
pair. -/
theorem flatten_run_sub (tbl : FingerprintTable) (t : ℚ)
    (ps : List (ImgRef × ImgRef)) (st : GroupState) {x : ImgRef}
    (hx : x ∈ (runPairs tbl t ps st).groups.flatten) :
    x ∈ st.groups.flatten ∨ ∃ p ∈ ps, x = p.1 ∨ x = p.2 := by
  induction ps generalizing st with
  | nil => exact Or.inl hx
  | cons p ps ih =>
      rw [runPairs_cons] at hx
      rcases ih _ hx with h | ⟨q, hq, hcomp⟩
      · rcases processPair_cases tbl t st p with hc | ⟨_, _, hc⟩ <;> rw [hc] at h
        · exact Or.inl h
        · rcases mergeFirst_flatten_sub h with rfl | rfl | hmem
          · exact Or.inr ⟨p, List.mem_cons_self _ _, Or.inl rfl⟩
          · exact Or.inr ⟨p, List.mem_cons_self _ _, Or.inr rfl⟩
          · exact Or.inl hmem
      · exact Or.inr ⟨q, List.mem_cons_of_mem _ hq, hcomp⟩

/-- Both components of every enumerated pair are list elements. -/
theorem pairsOf_mem_comp : ∀ {l : List ImgRef} {p : ImgRef × ImgRef},
    p ∈ pairsOf l → p.1 ∈ l ∧ p.2 ∈ l := by
  intro l
  induction l with
  | nil => intro p hp; cases hp
  | cons x xs ih =>
      intro p hp
      rcases List.mem_append.mp hp with h | h
      · obtain ⟨y, hy, rfl⟩ := List.mem_map.mp h
        exact ⟨List.mem_cons_self _ _, List.mem_cons_of_mem _ hy⟩
      · obtain ⟨h1, h2⟩ := ih h
        exact ⟨List.mem_cons_of_mem _ h1, List.mem_cons_of_mem _ h2⟩

theorem flatten_map_singleton (l : List ImgRef) :
    (l.map (fun i => [i])).flatten = l := by
  induction l with
  | nil => rfl
  | cons x xs ih => simp [ih]

/-- Invariant propagation through one first-element block of the pair loop:
starting from a well-formed state in which every grouped-but-unused element
avoids the upcoming second components, the state stays well formed, and any
element that is grouped but unused afterwards either already was so or is
the block's first element. -/
theorem blockRun_inv (tbl : FingerprintTable) (t : ℚ) (c : ImgRef) :
    ∀ (zs : List ImgRef) (st : GroupState), c ∉ zs → GoodState st →
    (∀ w ∈ st.groups.flatten, w ∉ st.used → w ∉ zs) →
    GoodState (runPairs tbl t (zs.map (fun z => (c, z))) st) ∧
    (∀ w ∈ (runPairs tbl t (zs.map (fun z => (c, z))) st).groups.flatten,
        w ∉ (runPairs tbl t (zs.map (fun z => (c, z))) st).used →
        (w ∈ st.groups.flatten ∧ w ∉ st.used) ∨ w = c) := by
  intro zs
  induction zs with
  | nil =>
      intro st _ hG _
      exact ⟨hG, fun w hw hnu => Or.inl ⟨hw, hnu⟩⟩
  | cons z zs ih =>
      intro st hc hG hF
      have hcz : c ∉ zs := fun h => hc (List.mem_cons_of_mem _ h)
      simp only [List.map_cons, runPairs_cons]
      rcases processPair_cases tbl t st (c, z) with hcase | ⟨hnu, hq, hcase⟩
      · rw [hcase]
        exact ih st hcz hG
          (fun w hw hnu => fun hmem => hF w hw hnu (List.mem_cons_of_mem _ hmem))
      · have hz2 : z ∉ st.used := fun h => hnu (Or.inr h)
        have hzflat : z ∉ st.groups.flatten :=
          fun hmem => hF z hmem hz2 (List.mem_cons_self _ _)
        rw [hcase]
        have hG1 : GoodState ⟨mergeFirst c z st.groups, st.used ++ [z]⟩ := by
          exact ⟨mergeFirst_wf c z hG.1, mergeFirst_disjoint hzflat hG.2⟩
        have hF1 : ∀ w ∈ (mergeFirst c z st.groups).flatten,
            w ∉ st.used ++ [z] → w ∉ zs := by
          intro w hw hnu1
          rcases mergeFirst_flatten_sub hw with rfl | rfl | hmem
          · exact hcz
          · exact absurd (List.mem_append.mpr (Or.inr (List.mem_singleton.mpr rfl))) hnu1
          · have : w ∉ st.used := fun h => hnu1 (List.mem_append.mpr (Or.inl h))
            exact fun hz => hF w hmem this (List.mem_cons_of_mem _ hz)
        obtain ⟨G2, F2⟩ := ih _ hcz hG1 hF1
        refine ⟨G2, ?_⟩
        intro w hw hnu2
        rcases F2 w hw hnu2 with ⟨hmem, hnu1⟩ | rfl
        · rcases mergeFirst_flatten_sub hmem with rfl | rfl | hmem'
          · exact Or.inr rfl
          · exact absurd (List.mem_append.mpr (Or.inr (List.mem_singleton.mpr rfl))) hnu1
          · exact Or.inl ⟨hmem', fun h => hnu1 (List.mem_append.mpr (Or.inl h))⟩
        · exact Or.inr rfl

/-- The pair loop keeps the grouping state well formed on a duplicate-free
item list. -/
theorem outerRun_inv (tbl : FingerprintTable) (t : ℚ) :
    ∀ (items : List ImgRef) (st : GroupState), items.Nodup → GoodState st →
    (∀ w ∈ st.groups.flatten, w ∉ st.used → w ∉ items.tail) →
    GoodState (runPairs tbl t (pairsOf items) st) := by
  intro items
  induction items with
  | nil => intro st _ hG _; exact hG
  | cons x xs ih =>
      intro st hnd hG hF
      rcases List.nodup_cons.mp hnd with ⟨hx, hndxs⟩
      simp only [pairsOf]
      rw [runPairs_append]
      obtain ⟨G1, F1⟩ := blockRun_inv tbl t x xs st hx hG hF
      refine ih _ hndxs G1 ?_
      intro w hw hnu
      rcases F1 w hw hnu with ⟨hmem, hnu0⟩ | rfl
      · exact fun h => hF w hmem hnu0 (List.tail_subset xs h)
      · exact fun h => hx (List.tail_subset xs h)

/-- Unfolding of the grouper into loop state plus singleton pass. -/
theorem group_similar_hashes_eq (tbl : FingerprintTable) (t : ℚ) :
    group_similar_hashes tbl t =
      (runPairs tbl t (pairsOf (tbl.map Prod.fst)) ⟨[], []⟩).groups ++
        ((tbl.map Prod.fst).filter
          (fun i => !(decide (i ∈ (runPairs tbl t (pairsOf (tbl.map Prod.fst))
            ⟨[], []⟩).groups.flatten)))).map (fun i => [i]) := rfl

/-- The partition facts about the grouper output: groups are nonempty and
duplicate-free, pairwise disjoint, and their members are exactly the table
keys. -/
theorem grouper_partition (tbl : FingerprintTable) (t : ℚ)
    (hnd : (tbl.map Prod.fst).Nodup) :
    (∀ g ∈ group_similar_hashes tbl t, g ≠ [] ∧ g.Nodup) ∧
    (group_similar_hashes tbl t).Pairwise List.Disjoint ∧
    (∀ x, x ∈ (group_similar_hashes tbl t).flatten ↔ x ∈ tbl.map Prod.fst) := by
  have hG : GoodState (runPairs tbl t (pairsOf (tbl.map Prod.fst)) ⟨[], []⟩) :=
    outerRun_inv tbl t (tbl.map Prod.fst) ⟨[], []⟩ hnd goodState_nil
      (by intro w hw; cases hw)
  set st := runPairs tbl t (pairsOf (tbl.map Prod.fst)) ⟨[], []⟩ with hst
  have hsub : ∀ x ∈ st.groups.flatten, x ∈ tbl.map Prod.fst := by
    intro x hx
    rcases flatten_run_sub tbl t _ _ hx with h | ⟨p, hp, hcomp⟩
    · cases h
    · rcases hcomp with rfl | rfl
      · exact (pairsOf_mem_comp hp).1
      · exact (pairsOf_mem_comp hp).2
  rw [group_similar_hashes_eq, ← hst]
  refine ⟨?_, ?_, ?_⟩
  · intro g hg
    rcases List.mem_append.mp hg with h | h
    · exact hG.1 g h
    · obtain ⟨i, _, rfl⟩ := List.mem_map.mp h
      exact ⟨List.cons_ne_nil i [], List.nodup_singleton i⟩
  · rw [List.pairwise_append]
    refine ⟨hG.2, ?_, ?_⟩
    · rw [List.pairwise_map]
      have : ((tbl.map Prod.fst).filter
          (fun i => !(decide (i ∈ st.groups.flatten)))).Nodup := hnd.filter _
      refine List.Pairwise.imp ?_ this
      intro i j hij a hai haj
      rcases List.mem_singleton.mp hai with rfl
      exact hij (List.mem_singleton.mp haj)
    · intro g hg s hs a hag has
      obtain ⟨i, hi, rfl⟩ := List.mem_map.mp hs
      rcases List.mem_singleton.mp has with rfl
      have : (!(decide (a ∈ st.groups.flatten))) = true := (List.mem_filter.mp hi).2
      simp only [Bool.not_eq_true', decide_eq_false_iff_not] at this
      exact this (List.mem_flatten.mpr ⟨g, hg, hag⟩)
  · intro x
    constructor
    · intro hx
      rw [List.flatten_append] at hx
      rcases List.mem_append.mp hx with h | h
      · exact hsub x h
      · rw [flatten_map_singleton] at h
        exact (List.mem_filter.mp h).1
    · intro hx
      rw [List.flatten_append]
      by_cases hmem : x ∈ st.groups.flatten
      · exact List.mem_append.mpr (Or.inl hmem)
      · refine List.mem_append.mpr (Or.inr ?_)
        rw [flatten_map_singleton]
        exact List.mem_filter.mpr ⟨hx, by
          simp only [Bool.not_eq_true', decide_eq_false_iff_not]; exact hmem⟩

/-! ## Claim C1 -/

/-- C1: for every Fingerprint Table (whose keys, coming from a Python dict,
are duplicate-free) and every threshold, the Groups returned by
`group_similar_hashes` partition the table's keys: an Image Reference is in
some Group exactly when it is a key, and no Image Reference appears in two
distinct Groups. -/
theorem c1_groups_partition_keys (tbl : FingerprintTable) (t : ℚ)
    (hnd : (tbl.map Prod.fst).Nodup) :
    (∀ x, (∃ g ∈ group_similar_hashes tbl t, x ∈ g) ↔ x ∈ tbl.map Prod.fst) ∧
    (group_similar_hashes tbl t).Pairwise List.Disjoint := by
  obtain ⟨_, hdis, hunion⟩ := grouper_partition tbl t hnd
  refine ⟨?_, hdis⟩
  intro x
  rw [← hunion x]
  exact ⟨fun ⟨g, hg, hx⟩ => List.mem_flatten.mpr ⟨g, hg, hx⟩,
    fun h => List.mem_flatten.mp h⟩

/-- Witness for C1 on a concrete four-image table. -/
theorem c1_groups_partition_keys_witness :
    (∀ x, (∃ g ∈ group_similar_hashes c4Table 96, x ∈ g) ↔
        x ∈ c4Table.map Prod.fst) ∧
    (group_similar_hashes c4Table 96).Pairwise List.Disjoint :=
  c1_groups_partition_keys c4Table 96 (by decide)

/-! ## Claim C2: the code is exactly the specification's reference
algorithm -/

/-- The code's first-match merge coincides with the spec's explicit
search-then-update description. -/
theorem mergeFirst_eq_specSearch (a b : ImgRef) (gs : List (List ImgRef)) :
    mergeFirst a b gs =
      match specSearch a b gs with
      | some r => r.1 ++ (setInsert (setInsert r.2.1 a) b :: r.2.2)
      | none => gs ++ [setInsert (setInsert [] a) b] := by
  induction gs with
  | nil => rfl
  | cons g gs ih =>
      by_cases hm : a ∈ g ∨ b ∈ g
      · simp [mergeFirst, specSearch, hm]
      · simp only [mergeFirst, specSearch, if_neg hm, ih]
        cases hs : specSearch a b gs with
        | none => simp
        | some r => simp

/-- One spec step equals one code step. -/
theorem specStep_eq (tbl : FingerprintTable) (t : ℚ) (st : GroupState)
    (p : ImgRef × ImgRef) : specStep tbl t st p = processPair tbl t st p := by
  unfold specStep processPair
  by_cases hu : p.1 ∈ st.used ∨ p.2 ∈ st.used
  · simp [hu]
  · by_cases hq : t ≤ hamming_similarity (lookupFp tbl p.1) (lookupFp tbl p.2)
    · have hq' : qualifies tbl t p.1 p.2 = true := decide_eq_true hq
      simp only [if_neg hu, if_pos hq, hq', if_pos]
      rw [mergeFirst_eq_specSearch]
      cases specSearch p.1 p.2 st.groups with
      | none => rfl
      | some r => rfl
    · have hq' : qualifies tbl t p.1 p.2 = false :=
        decide_eq_false hq
      simp [hu, hq, hq']

/-- The spec's pair scan equals the code's fold. -/
theorem specScan_eq (tbl : FingerprintTable) (t : ℚ) :
    ∀ (ps : List (ImgRef × ImgRef)) (st : GroupState),
    specScan tbl t ps st = runPairs tbl t ps st := by
  intro ps
  induction ps with
  | nil => intro st; rfl
  | cons p ps ih =>
      intro st
      rw [specScan, runPairs_cons, specStep_eq, ih]

/-- The spec's "present in any Group" test equals the code's membership in
the flattened group list. -/
theorem any_contains_eq_mem_flatten (gs : List (List ImgRef)) (i : ImgRef) :
    gs.any (fun g => g.contains i) = decide (i ∈ gs.flatten) := by
  by_cases h : i ∈ gs.flatten
  · obtain ⟨g, hg, hi⟩ := List.mem_flatten.mp h
    rw [decide_eq_true h]
    exact List.any_eq_true.mpr ⟨g, hg, List.elem_eq_true_of_mem hi⟩
  · rw [decide_eq_false h]
    rw [Bool.eq_false_iff]
    intro hc
    obtain ⟨g, hg, hi⟩ := List.any_eq_true.mp hc
    exact h (List.mem_flatten.mpr ⟨g, hg, List.mem_of_elem_eq_true hi⟩)

/-- The spec's singleton pass equals the code's filter-and-wrap. -/
theorem specSingletonPass_eq (gs : List (List ImgRef)) :
    ∀ items : List ImgRef,
    specSingletonPass gs items =
      (items.filter (fun i => !(decide (i ∈ gs.flatten)))).map (fun i => [i]) := by
  intro items
  induction items with
  | nil => rfl
  | cons i is ih =>
      rw [specSingletonPass, any_contains_eq_mem_flatten]
      by_cases h : i ∈ gs.flatten
      · rw [if_pos (decide_eq_true h), ih, List.filter_cons]
        simp [h]
      · rw [if_neg (by simp [h]), ih, List.filter_cons]
        simp [h]

/-- C2: `group_similar_hashes` implements exactly the specification's
reference algorithm — enumerating all unordered pairs in key order,
skipping used elements, merging qualifying pairs into the first Group
containing either element or starting a new Group, marking only the second
element used, then turning every ungrouped key into a singleton Group. -/
theorem c2_code_eq_spec_algorithm (tbl : FingerprintTable) (t : ℚ) :
    specGrouping tbl t = group_similar_hashes tbl t := by
  rw [specGrouping, group_similar_hashes_eq, specScan_eq, specSingletonPass_eq]

/-! ## Claim C10: every group is connected under the similarity relation -/

theorem connEdge_symm (tbl : FingerprintTable) (t : ℚ) (g : List ImgRef) :
    Symmetric (connEdge tbl t g) := by
  intro u v ⟨hu, hv, hq⟩
  exact ⟨hv, hu, hq.symm⟩

theorem connEdge_mono {tbl : FingerprintTable} {t : ℚ} {g g' : List ImgRef}
    (hsub : g ⊆ g') {u v : ImgRef} (h : connEdge tbl t g u v) :
    connEdge tbl t g' u v :=
  ⟨hsub h.1, hsub h.2.1, h.2.2⟩

theorem connectedGroup_singleton (tbl : FingerprintTable) (t : ℚ) (i : ImgRef) :
    ConnectedGroup tbl t [i] := by
  intro x hx y hy
  rcases List.mem_singleton.mp hx with rfl
  rcases List.mem_singleton.mp hy with rfl
  exact Relation.ReflTransGen.refl

/-- Inserting a qualifying pair into a connected group, at least one of the
two being a member already, keeps the group connected. -/
theorem connectedGroup_insert_pair {tbl : FingerprintTable} {t : ℚ}
    {g : List ImgRef} {a b : ImgRef} (hconn : ConnectedGroup tbl t g)
    (hm : a ∈ g ∨ b ∈ g) (hq : qualifies tbl t a b = true) :
    ConnectedGroup tbl t (setInsert (setInsert g a) b) := by
  set g' := setInsert (setInsert g a) b with hg'
  have hsub : g ⊆ g' := fun x hx =>
    subset_setInsert _ _ (subset_setInsert _ _ hx)
  have hag' : a ∈ g' := subset_setInsert _ _ (self_mem_setInsert _ _)
  have hbg' : b ∈ g' := self_mem_setInsert _ _
  have hedge : connEdge tbl t g' a b := ⟨hag', hbg', Or.inl hq⟩
  have hmem : ∀ x ∈ g', x = b ∨ x = a ∨ x ∈ g := by
    intro x hx
    rcases mem_setInsert.mp hx with rfl | hx2
    · exact Or.inl rfl
    · rcases mem_setInsert.mp hx2 with rfl | hx3
      · exact Or.inr (Or.inl rfl)
      · exact Or.inr (Or.inr hx3)
  have hold : ∀ x ∈ g, ∀ y ∈ g,
      Relation.ReflTransGen (connEdge tbl t g') x y := by
    intro x hx y hy
    exact Relation.ReflTransGen.mono (fun u v h => connEdge_mono hsub h)
      (hconn x hx y hy)
  -- reach from a to every member of g, and from b to every member of g
  have hreach_a : ∀ y ∈ g, Relation.ReflTransGen (connEdge tbl t g') a y := by
    intro y hy
    rcases hm with ha | hb
    · exact hold a ha y hy
    · exact Relation.ReflTransGen.head hedge (hold b hb y hy)
  have hreach_b : ∀ y ∈ g, Relation.ReflTransGen (connEdge tbl t g') b y := by
    intro y hy
    rcases hm with ha | hb
    · exact Relation.ReflTransGen.head (connEdge_symm tbl t g' hedge)
        (hold a ha y hy)
    · exact hold b hb y hy
  have hsymm := Relation.ReflTransGen.symmetric (connEdge_symm tbl t g')
  have hfrom : ∀ x ∈ g', ∀ y ∈ g,
      Relation.ReflTransGen (connEdge tbl t g') x y := by
    intro x hx y hy
    rcases hmem x hx with rfl | rfl | hxg
    · exact hreach_b y hy
    · exact hreach_a y hy
    · exact hold x hxg y hy
  intro x hx y hy
  rcases hmem y hy with rfl | rfl | hyg
  · -- y = b
    rcases hmem x hx with rfl | rfl | hxg
    · exact Relation.ReflTransGen.refl
    · exact Relation.ReflTransGen.single hedge
    · exact hsymm (hreach_b x hxg)
  · -- y = a
    rcases hmem x hx with rfl | rfl | hxg
    · exact Relation.ReflTransGen.single (connEdge_symm tbl t g' hedge)
    · exact Relation.ReflTransGen.refl
    · exact hsymm (hreach_a x hxg)
  · exact hfrom x hx y hyg

/-- A merge keeps every group connected. -/
theorem mergeFirst_connected {tbl : FingerprintTable} {t : ℚ}
    {gs : List (List ImgRef)} {a b : ImgRef}
    (h : ∀ g ∈ gs, ConnectedGroup tbl t g) (hq : qualifies tbl t a b = true) :
    ∀ g' ∈ mergeFirst a b gs, ConnectedGroup tbl t g' := by
  induction gs with
  | nil =>
      intro g' hg'
      simp only [mergeFirst] at hg'
      rcases List.mem_singleton.mp hg' with rfl
      have h1 : setInsert ([] : List ImgRef) a = [a] := rfl
      have hc := connectedGroup_insert_pair (g := setInsert [] a)
        (h1 ▸ connectedGroup_singleton tbl t a)
        (Or.inl (self_mem_setInsert [] a)) hq
      rwa [setInsert_of_mem (self_mem_setInsert [] a)] at hc
  | cons g0 gs ih =>
      intro g' hg'
      by_cases hm : a ∈ g0 ∨ b ∈ g0
      · simp only [mergeFirst, if_pos hm] at hg'
        rcases List.mem_cons.mp hg' with rfl | hmem
        · exact connectedGroup_insert_pair (h g0 (List.mem_cons_self _ _)) hm hq
        · exact h g' (List.mem_cons_of_mem _ hmem)
      · simp only [mergeFirst, if_neg hm] at hg'
        rcases List.mem_cons.mp hg' with rfl | hmem
        · exact h g' (List.mem_cons_self _ _)
        · exact ih (fun g hg => h g (List.mem_cons_of_mem _ hg)) g' hmem

theorem run_connected (tbl : FingerprintTable) (t : ℚ)
    (ps : List (ImgRef × ImgRef)) (st : GroupState)
    (h : ∀ g ∈ st.groups, ConnectedGroup tbl t g) :
    ∀ g ∈ (runPairs tbl t ps st).groups, ConnectedGroup tbl t g := by
  induction ps generalizing st with
  | nil => exact h
  | cons p ps ih =>
      rw [runPairs_cons]
      refine ih _ ?_
      rcases processPair_cases tbl t st p with hc | ⟨_, hq, hc⟩ <;> rw [hc]
      · exact h
      · exact mergeFirst_connected h hq

/-- C10: every Group returned by `group_similar_hashes` is connected under
the similarity-at-threshold relation: any two members are linked by a chain
of members whose consecutive pairs qualify (so no Image Reference is
grouped with images to which it has no chain of qualifying similarities). -/
theorem c10_groups_connected (tbl : FingerprintTable) (t : ℚ) :
    ∀ g ∈ group_similar_hashes tbl t, ∀ x ∈ g, ∀ y ∈ g,
      Relation.ReflTransGen (connEdge tbl t g) x y := by
  intro g hg
  rw [group_similar_hashes_eq] at hg
  rcases List.mem_append.mp hg with h | h
  · exact run_connected tbl t _ _ (by intro g0 hg0; cases hg0) g h
  · obtain ⟨i, _, rfl⟩ := List.mem_map.mp h
    exact connectedGroup_singleton tbl t i

/-- Witness for C10: on a one-image table the single (singleton) group is
connected. -/
theorem c10_groups_connected_witness :
    Relation.ReflTransGen (connEdge [("a", fpOnes)] 96 ["a"]) "a" "a" :=
  c10_groups_connected [("a", fpOnes)] 96 ["a"] (by decide) "a" (by decide)
    "a" (by decide)

/-! ## Claim C6: the merge condition is ≥, not > -/

/-- C6: a pair of not-yet-used Image References whose Similarity Percentage
is exactly equal to the threshold is merged into a common Group by its loop
iteration (the condition is ≥); a pair whose Similarity Percentage is
strictly below the threshold leaves the loop state unchanged — it never
causes a merge of that pair. -/
theorem c6_threshold_boundary (tbl : FingerprintTable) (t : ℚ)
    (st : GroupState) (a b : ImgRef) :
    (hamming_similarity (lookupFp tbl a) (lookupFp tbl b) = t →
      a ∉ st.used → b ∉ st.used →
      ∃ g ∈ (processPair tbl t st (a, b)).groups, a ∈ g ∧ b ∈ g) ∧
    (hamming_similarity (lookupFp tbl a) (lookupFp tbl b) < t →
      processPair tbl t st (a, b) = st) := by
  constructor
  · intro heq ha hb
    have hnu : ¬((a, b).1 ∈ st.used ∨ (a, b).2 ∈ st.used) :=
      fun h => h.elim ha hb
    have hq : qualifies tbl t a b = true := decide_eq_true (le_of_eq heq.symm)
    rw [processPair_merge hnu hq]
    exact mergeFirst_mem_both a b st.groups
  · intro hlt
    by_cases hu : (a, b).1 ∈ st.used ∨ (a, b).2 ∈ st.used
    · exact processPair_skip hu
    · exact processPair_noqual hu (decide_eq_false (not_le.mpr hlt))

/-- The two images of `c6Table` have similarity exactly 75. -/
theorem c6Table_sim :
    hamming_similarity (lookupFp c6Table "a") (lookupFp c6Table "b") = 75 := by
  have h1 : lookupFp c6Table "a" = fpOnes := rfl
  have h2 : lookupFp c6Table "b" = fpThree := rfl
  have hd : hammingDistance fpOnes fpThree = 1 := rfl
  have hlen : fpOnes.hash.length = 2 := rfl
  rw [h1, h2]
  simp only [hamming_similarity, hd, hlen]
  norm_num

/-- Witness for C6: on the two-image table with similarity 75, threshold 75
merges the pair, and threshold 100 (one differing bit, Scenario D) leaves
the state untouched. -/
theorem c6_threshold_boundary_witness :
    (∃ g ∈ (processPair c6Table 75 ⟨[], []⟩ ("a", "b")).groups,
        "a" ∈ g ∧ "b" ∈ g) ∧
    processPair c6Table 100 ⟨[], []⟩ ("a", "b") = ⟨[], []⟩ := by
  constructor
  · exact (c6_threshold_boundary c6Table 75 ⟨[], []⟩ "a" "b").1 c6Table_sim
      (by simp) (by simp)
  · exact (c6_threshold_boundary c6Table 100 ⟨[], []⟩ "a" "b").2
      (by rw [c6Table_sim]; norm_num)

/-! ## Claim C7: decode failures are excluded, the run continues -/

/-- The members of the output groups are always among the table keys. -/
theorem grouper_flatten_subset (tbl : FingerprintTable) (t : ℚ) :
    ∀ x ∈ (group_similar_hashes tbl t).flatten, x ∈ tbl.map Prod.fst := by
  intro x hx
  rw [group_similar_hashes_eq, List.flatten_append] at hx
  rcases List.mem_append.mp hx with h | h
  · rcases flatten_run_sub tbl t _ _ h with h0 | ⟨p, hp, hcomp⟩
    · cases h0
    · rcases hcomp with rfl | rfl
      · exact (pairsOf_mem_comp hp).1
      · exact (pairsOf_mem_comp hp).2
  · rw [flatten_map_singleton] at h
    exact (List.mem_filter.mp h).1

/-- C7: a file whose decode raises is excluded from the Fingerprint Table
and appears in no output Group, while every file whose decode succeeds
still receives its table entry — the failure is not fatal to the run. -/
theorem c7_decode_failure_excluded (files : List ImgRef)
    (hashOf : ImgRef → Option Fingerprint) (t : ℚ) (f : ImgRef)
    (hf : hashOf f = none) :
    f ∉ (buildTable files hashOf).map Prod.fst ∧
    (∀ g ∈ group_similar_hashes (buildTable files hashOf) t, f ∉ g) ∧
    (∀ f2 ∈ files, ∀ h, hashOf f2 = some h → (f2, h) ∈ buildTable files hashOf) := by
  have hkey : f ∉ (buildTable files hashOf).map Prod.fst := by
    intro hmem
    obtain ⟨⟨f1, h1⟩, hin, hfst⟩ := List.mem_map.mp hmem
    obtain ⟨path, _, hsome⟩ := List.mem_filterMap.mp hin
    cases hp : hashOf path with
    | none => rw [hp] at hsome; cases hsome
    | some fp =>
        rw [hp] at hsome
        rw [Option.map_some'] at hsome
        cases hsome
        simp only at hfst
        subst hfst
        rw [hp] at hf
        cases hf
  refine ⟨hkey, ?_, ?_⟩
  · intro g hg hfg
    exact hkey (grouper_flatten_subset _ t f
      (List.mem_flatten.mpr ⟨g, hg, hfg⟩))
  · intro f2 hf2 h hsome
    exact List.mem_filterMap.mpr ⟨f2, hf2, by rw [hsome]; rfl⟩

/-- Witness for C7: in a two-file run where "a" fails to decode, "a" is in
no group and "b" is still processed. -/
theorem c7_decode_failure_excluded_witness :
    "a" ∉ (buildTable ["a", "b"] failA).map Prod.fst ∧
    (∀ g ∈ group_similar_hashes (buildTable ["a", "b"] failA) 96, "a" ∉ g) ∧
    (∀ f2 ∈ ["a", "b"], ∀ h, failA f2 = some h →
      (f2, h) ∈ buildTable ["a", "b"] failA) :=
  c7_decode_failure_excluded ["a", "b"] failA 96 "a" (by decide)

/-! ## Claim C9: the only external mutation is removing delete candidates
in execute mode -/

/-- C9: the dry-run mode of the delete variant removes no file, and in
execute mode every file that is not the delete element of some (keep,
delete) pair — every keep, every singleton-group member, every file
excluded from the table — is still on disk afterwards, and nothing appears
that was not there before.  (The report-only variant contains no filesystem
mutation at all.) -/
theorem c9_deletion_frame (files disk : List ImgRef)
    (hashOf : ImgRef → Option Fingerprint) (t : ℚ) (removeOk : ImgRef → Bool)
    (dups : List (ImgRef × ImgRef))
    (_hdups : dups = duplicatePairs (group_similar_hashes (buildTable files hashOf) t)) :
    runDeletion true removeOk dups disk = disk ∧
    (∀ f ∈ disk, f ∉ dups.map Prod.snd → f ∈ runDeletion false removeOk dups disk) ∧
    (∀ f, f ∈ runDeletion false removeOk dups disk → f ∈ disk) := by
  clear _hdups
  refine ⟨rfl, ?_, ?_⟩
  · intro f hf hnc
    simp only [runDeletion, if_neg (Bool.false_ne_true)]
    induction dups generalizing disk with
    | nil => exact hf
    | cons p ps ih =>
        have hne : f ≠ p.2 := fun h =>
          hnc (h ▸ List.mem_map_of_mem Prod.snd (List.mem_cons_self p ps))
        have hnc2 : f ∉ ps.map Prod.snd := fun h =>
          hnc (by simp only [List.map_cons, List.mem_cons]; exact Or.inr h)
        simp only [List.foldl_cons]
        by_cases hro : removeOk p.2 = true
        · rw [if_pos hro]
          exact ih _ ((List.mem_erase_of_ne hne).mpr hf) hnc2
        · rw [if_neg hro]
          exact ih _ hf hnc2
  · intro f hf
    simp only [runDeletion, if_neg (Bool.false_ne_true)] at hf
    induction dups generalizing disk with
    | nil => exact hf
    | cons p ps ih =>
        simp only [List.foldl_cons] at hf
        by_cases hro : removeOk p.2 = true
        · rw [if_pos hro] at hf
          exact List.erase_subset p.2 disk (ih _ hf)
        · rw [if_neg hro] at hf
          exact ih _ hf

/-- Witness for C9 on a concrete three-file run. -/
theorem c9_deletion_frame_witness :
    runDeletion true (fun _ => true)
      (duplicatePairs (group_similar_hashes (buildTable ["a", "b", "c"] failA) 96))
      ["a", "b", "c"] = ["a", "b", "c"] ∧
    (∀ f ∈ ["a", "b", "c"],
      f ∉ (duplicatePairs (group_similar_hashes (buildTable ["a", "b", "c"] failA) 96)).map Prod.snd →
      f ∈ runDeletion false (fun _ => true)
        (duplicatePairs (group_similar_hashes (buildTable ["a", "b", "c"] failA) 96))
        ["a", "b", "c"]) ∧
    (∀ f, f ∈ runDeletion false (fun _ => true)
        (duplicatePairs (group_similar_hashes (buildTable ["a", "b", "c"] failA) 96))
        ["a", "b", "c"] → f ∈ ["a", "b", "c"]) :=
  c9_deletion_frame ["a", "b", "c"] ["a", "b", "c"] failA 96 (fun _ => true) _ rfl

/-! ## Claim C8: keep/delete structure of the delete variant -/

/-- The accumulator-threading fold of the `duplicates` loop equals mapping
`dupPairsOfGroup` over the groups and concatenating. -/
theorem duplicatePairs_foldl (gs : List (List ImgRef)) :
    ∀ acc : List (ImgRef × ImgRef),
    gs.foldl (fun acc group =>
      match group with
      | keep :: d :: rest => acc ++ ((d :: rest).map (fun dup => (keep, dup)))
      | _ => acc) acc = acc ++ gs.flatMap dupPairsOfGroup := by
  induction gs with
  | nil => intro acc; simp
  | cons g gs ih =>
      intro acc
      rw [List.foldl_cons, List.flatMap_cons g gs dupPairsOfGroup, ih]
      cases g with
      | nil => simp [dupPairsOfGroup]
      | cons k tail =>
          cases tail with
          | nil => simp [dupPairsOfGroup]
          | cons d rest => simp [dupPairsOfGroup]

theorem duplicatePairs_eq (gs : List (List ImgRef)) :
    duplicatePairs gs = gs.flatMap dupPairsOfGroup := by
  rw [duplicatePairs, duplicatePairs_foldl gs []]
  rfl

/-- The delete elements contributed by one group are exactly its tail. -/
theorem dupPairsOfGroup_snd (g : List ImgRef) :
    (dupPairsOfGroup g).map Prod.snd = g.tail := by
  cases g with
  | nil => rfl
  | cons k tail =>
      cases tail with
      | nil => rfl
      | cons d rest => simp [dupPairsOfGroup]

/-- Shape of one contributed pair. -/
theorem dupPairsOfGroup_mem {g : List ImgRef} {p : ImgRef × ImgRef}
    (hp : p ∈ dupPairsOfGroup g) :
    ∃ k d rest, g = k :: d :: rest ∧ p.1 = k ∧ p.2 ∈ d :: rest := by
  cases g with
  | nil => cases hp
  | cons k tail =>
      cases tail with
      | nil => cases hp
      | cons d rest =>
          obtain ⟨x, hx, rfl⟩ := List.mem_map.mp hp
          exact ⟨k, d, rest, rfl, rfl, hx⟩

/-- Each delete element appears exactly once, assuming disjoint
duplicate-free groups. -/
theorem count_snd_dupPairs :
    ∀ gs : List (List ImgRef), gs.Pairwise List.Disjoint →
    (∀ g ∈ gs, g.Nodup) → ∀ g ∈ gs, ∀ d ∈ g.tail,
    ((gs.flatMap dupPairsOfGroup).map Prod.snd).count d = 1 := by
  intro gs
  induction gs with
  | nil => intro _ _ g hg; cases hg
  | cons g0 gs ih =>
      intro hdis hnod g hg d hd
      rcases List.pairwise_cons.mp hdis with ⟨hd0, htl⟩
      rw [List.flatMap_cons g0 gs dupPairsOfGroup, List.map_append,
        List.count_append]
      rcases List.mem_cons.mp hg with rfl | hmem
      · have h1 : ((dupPairsOfGroup g).map Prod.snd).count d = 1 := by
          rw [dupPairsOfGroup_snd]
          exact List.count_eq_one_of_mem
            ((hnod g (List.mem_cons_self _ _)).sublist (List.tail_sublist g)) hd
        have h2 : ((gs.flatMap dupPairsOfGroup).map Prod.snd).count d = 0 := by
          rw [List.count_eq_zero]
          intro hc
          obtain ⟨p, hp, hpd⟩ := List.mem_map.mp hc
          obtain ⟨g1, hg1, hpg⟩ := List.mem_flatMap.mp hp
          have hsnd : p.2 ∈ g1.tail := by
            have := List.mem_map_of_mem Prod.snd hpg
            rwa [dupPairsOfGroup_snd] at this
          exact hd0 g1 hg1 (List.tail_subset g hd)
            (hpd ▸ List.tail_subset g1 hsnd)
        rw [h1, h2]
      · have h1 : ((dupPairsOfGroup g0).map Prod.snd).count d = 0 := by
          rw [dupPairsOfGroup_snd, List.count_eq_zero]
          intro hc
          exact hd0 g hmem (List.tail_subset g0 hc) (List.tail_subset g hd)
        have h2 := ih htl (fun g1 hg1 => hnod g1 (List.mem_cons_of_mem _ hg1))
          g hmem d hd
        rw [h1, h2]

/-- C8: in the delete variant, every (keep, delete) pair comes from a Group
with more than one member whose first member is the keep and whose delete is
one of the remaining members; each Group of that shape contributes exactly
its first member paired with each of the rest; each remaining member
appears as a delete element exactly once; and no Image Reference is both a
keep and a delete candidate. -/
theorem c8_keep_delete_structure (tbl : FingerprintTable) (t : ℚ)
    (hnd : (tbl.map Prod.fst).Nodup) :
    (∀ p ∈ duplicatePairs (group_similar_hashes tbl t),
      ∃ g ∈ group_similar_hashes tbl t,
        1 < g.length ∧ g.head? = some p.1 ∧ p.2 ∈ g.tail) ∧
    (∀ g ∈ group_similar_hashes tbl t, ∀ k d rest, g = k :: d :: rest →
      ∀ x ∈ d :: rest, (k, x) ∈ duplicatePairs (group_similar_hashes tbl t)) ∧
    (∀ g ∈ group_similar_hashes tbl t, ∀ d ∈ g.tail,
      ((duplicatePairs (group_similar_hashes tbl t)).map Prod.snd).count d = 1) ∧
    (∀ x, x ∈ (duplicatePairs (group_similar_hashes tbl t)).map Prod.fst →
      x ∉ (duplicatePairs (group_similar_hashes tbl t)).map Prod.snd) := by
  obtain ⟨hwf, hdis, _⟩ := grouper_partition tbl t hnd
  rw [duplicatePairs_eq]
  refine ⟨?_, ?_, ?_, ?_⟩
  · intro p hp
    obtain ⟨g, hg, hpg⟩ := List.mem_flatMap.mp hp
    obtain ⟨k, d, rest, rfl, h1, h2⟩ := dupPairsOfGroup_mem hpg
    refine ⟨k :: d :: rest, hg, by simp, by rw [h1]; rfl, h2⟩
  · intro g hg k d rest heq x hx
    refine List.mem_flatMap.mpr ⟨g, hg, ?_⟩
    rw [heq]
    exact List.mem_map_of_mem (fun dup => (k, dup)) hx
  · exact count_snd_dupPairs _ hdis (fun g hg => (hwf g hg).2)
  · intro x hxf hxs
    obtain ⟨p, hp, hpf⟩ := List.mem_map.mp hxf
    obtain ⟨g, hg, hpg⟩ := List.mem_flatMap.mp hp
    obtain ⟨k, d, rest, rfl, hk, _⟩ := dupPairsOfGroup_mem hpg
    obtain ⟨q, hq, hqs⟩ := List.mem_map.mp hxs
    obtain ⟨g1, hg1, hqg⟩ := List.mem_flatMap.mp hq
    have hxg : x ∈ k :: d :: rest := by
      rw [← hpf, hk]; exact List.mem_cons_self _ _
    have hxg1 : x ∈ g1.tail := by
      have := List.mem_map_of_mem Prod.snd hqg
      rw [dupPairsOfGroup_snd] at this
      rwa [hqs] at this
    by_cases hgg : (k :: d :: rest : List ImgRef) = g1
    · subst hgg
      have hnodup := (hwf _ hg).2
      have hk0 : k ∉ d :: rest := (List.nodup_cons.mp hnodup).1
      have : x = k := by rw [← hpf, hk]
      rw [this] at hxg1
      exact hk0 hxg1
    · have hdisj := List.Pairwise.forall
        (fun a b (h : List.Disjoint a b) => h.symm) hdis hg hg1 hgg
      exact hdisj hxg (List.tail_subset g1 hxg1)

/-- Witness for C8 on the concrete four-image table at threshold 75, where
the groups are [["a","b","c"], ["d"]]. -/
theorem c8_keep_delete_structure_witness :
    (∀ p ∈ duplicatePairs (group_similar_hashes c4Table 75),
      ∃ g ∈ group_similar_hashes c4Table 75,
        1 < g.length ∧ g.head? = some p.1 ∧ p.2 ∈ g.tail) ∧
    (∀ g ∈ group_similar_hashes c4Table 75, ∀ k d rest, g = k :: d :: rest →
      ∀ x ∈ d :: rest, (k, x) ∈ duplicatePairs (group_similar_hashes c4Table 75)) ∧
    (∀ g ∈ group_similar_hashes c4Table 75, ∀ d ∈ g.tail,
      ((duplicatePairs (group_similar_hashes c4Table 75)).map Prod.snd).count d = 1) ∧
    (∀ x, x ∈ (duplicatePairs (group_similar_hashes c4Table 75)).map Prod.fst →
      x ∉ (duplicatePairs (group_similar_hashes c4Table 75)).map Prod.snd) :=
  c8_keep_delete_structure c4Table 75 (by decide)

/-! ## Claim C5: the reported duplicate counts -/

/-- One nonempty group contributes one pair fewer than its size. -/
theorem dupPairsOfGroup_length {g : List ImgRef} (h : g ≠ []) :
    (dupPairsOfGroup g).length + 1 = g.length := by
  cases g with
  | nil => exact absurd rfl h
  | cons k tail =>
      cases tail with
      | nil => rfl
      | cons d rest => simp [dupPairsOfGroup]

theorem dupPairs_length :
    ∀ gs : List (List ImgRef), (∀ g ∈ gs, g ≠ []) →
    (gs.flatMap dupPairsOfGroup).length + gs.length = gs.flatten.length := by
  intro gs
  induction gs with
  | nil => intro _; rfl
  | cons g0 gs ih =>
      intro hne
      rw [List.flatMap_cons g0 gs dupPairsOfGroup, List.length_append,
        List.flatten_cons, List.length_append, List.length_cons]
      have h1 := dupPairsOfGroup_length (hne g0 (List.mem_cons_self _ _))
      have h2 := ih (fun g hg => hne g (List.mem_cons_of_mem _ hg))
      omega

/-- With duplicate-free keys the group members enumerate the keys, so the
total group size equals the table size. -/
theorem grouper_flatten_length (tbl : FingerprintTable) (t : ℚ)
    (hnd : (tbl.map Prod.fst).Nodup) :
    (group_similar_hashes tbl t).flatten.length = tbl.length := by
  obtain ⟨hwf, hdis, hunion⟩ := grouper_partition tbl t hnd
  have hnodup : (group_similar_hashes tbl t).flatten.Nodup := by
    rw [List.nodup_flatten]
    exact ⟨fun g hg => (hwf g hg).2, hdis⟩
  have hperm : List.Perm (group_similar_hashes tbl t).flatten (tbl.map Prod.fst) :=
    (List.perm_ext_iff_of_nodup hnodup hnd).mpr hunion
  rw [hperm.length_eq, List.length_map]

/-- When every file decodes, the table has one entry per file. -/
theorem buildTable_length_of_all_some (files : List ImgRef)
    (hashOf : ImgRef → Option Fingerprint)
    (h : ∀ f ∈ files, (hashOf f).isSome) :
    (buildTable files hashOf).length = files.length := by
  induction files with
  | nil => rfl
  | cons f fs ih =>
      cases hf : hashOf f with
      | none =>
          have := h f (List.mem_cons_self _ _)
          rw [hf] at this
          cases this
      | some fp =>
          simp only [buildTable, List.filterMap_cons, hf, Option.map_some',
            List.length_cons]
          have := ih (fun g hg => h g (List.mem_cons_of_mem _ hg))
          simp only [buildTable] at this
          rw [this]

/-- C5 counterexample: with two files of which one fails to decode, the
delete variant reports 0 duplicates while total − group count is 1, so the
delete variant's reported count is not total − group count. -/
theorem c5_counterexample :
    deleteSummaryDuplicates ["a", "b"] failA 96 = 0 ∧
    ((["a", "b"] : List ImgRef).length : ℤ) -
      ((group_similar_hashes (buildTable ["a", "b"] failA) 96).length : ℤ) = 1 ∧
    deleteSummaryDuplicates ["a", "b"] failA 96 ≠
      ((["a", "b"] : List ImgRef).length : ℤ) -
        ((group_similar_hashes (buildTable ["a", "b"] failA) 96).length : ℤ) := by
  refine ⟨rfl, rfl, ?_⟩
  intro h
  rw [show deleteSummaryDuplicates ["a", "b"] failA 96 = 0 from rfl] at h
  rw [show ((["a", "b"] : List ImgRef).length : ℤ) -
      ((group_similar_hashes (buildTable ["a", "b"] failA) 96).length : ℤ) = 1
    from rfl] at h
  cases h

/-- C5 as amended: the report-only variant prints total files found minus
group count; the delete variant prints the number of successfully
fingerprinted images minus the group count, which coincides with total
minus group count exactly when every file fingerprints successfully. -/
theorem c5_amended_duplicate_counts (files : List ImgRef)
    (hashOf : ImgRef → Option Fingerprint) (t : ℚ)
    (hnd : ((buildTable files hashOf).map Prod.fst).Nodup) :
    reportSummaryDuplicates files hashOf t =
      (files.length : ℤ) -
        ((group_similar_hashes (buildTable files hashOf) t).length : ℤ) ∧
    deleteSummaryDuplicates files hashOf t =
      ((buildTable files hashOf).length : ℤ) -
        ((group_similar_hashes (buildTable files hashOf) t).length : ℤ) ∧
    ((∀ f ∈ files, (hashOf f).isSome) →
      deleteSummaryDuplicates files hashOf t =
        (files.length : ℤ) -
          ((group_similar_hashes (buildTable files hashOf) t).length : ℤ)) := by
  have hwf := (grouper_partition (buildTable files hashOf) t hnd).1
  have hlen : (duplicatePairs (group_similar_hashes (buildTable files hashOf) t)).length +
      (group_similar_hashes (buildTable files hashOf) t).length =
      (buildTable files hashOf).length := by
    rw [duplicatePairs_eq]
    have h1 := dupPairs_length (group_similar_hashes (buildTable files hashOf) t)
      (fun g hg => (hwf g hg).1)
    have h2 := grouper_flatten_length (buildTable files hashOf) t hnd
    omega
  have hdel : deleteSummaryDuplicates files hashOf t =
      ((buildTable files hashOf).length : ℤ) -
        ((group_similar_hashes (buildTable files hashOf) t).length : ℤ) := by
    rw [deleteSummaryDuplicates]
    omega
  refine ⟨rfl, hdel, ?_⟩
  intro hall
  rw [hdel, buildTable_length_of_all_some files hashOf hall]

/-- Witness for the amended C5 on a concrete two-file run with one decode
failure. -/
theorem c5_amended_duplicate_counts_witness :
    reportSummaryDuplicates ["a", "b"] failA 96 =
      (((["a", "b"] : List ImgRef)).length : ℤ) -
        ((group_similar_hashes (buildTable ["a", "b"] failA) 96).length : ℤ) ∧
    deleteSummaryDuplicates ["a", "b"] failA 96 =
      ((buildTable ["a", "b"] failA).length : ℤ) -
        ((group_similar_hashes (buildTable ["a", "b"] failA) 96).length : ℤ) ∧
    ((∀ f ∈ (["a", "b"] : List ImgRef), (failA f).isSome) →
      deleteSummaryDuplicates ["a", "b"] failA 96 =
        (((["a", "b"] : List ImgRef)).length : ℤ) -
          ((group_similar_hashes (buildTable ["a", "b"] failA) 96).length : ℤ)) :=
  c5_amended_duplicate_counts ["a", "b"] failA 96 (by decide)

/-! ## Claim C4: threshold monotonicity fails -/

/-- Evaluation helper: similarity from an evaluated Hamming distance and
matrix height. -/
theorem hamming_similarity_eval (f g : Fingerprint) (d n : ℕ)
    (hd : hammingDistance f g = d) (hn : f.hash.length = n) :
    hamming_similarity f g = 100 * (1 - (d : ℚ) / (n : ℚ) ^ 2) := by
  simp only [hamming_similarity, hd, hn]

theorem c4_qab75 : qualifies c4Table 75 "a" "b" = true :=
  decide_eq_true (by
    rw [show lookupFp c4Table "a" = cxA from rfl,
      show lookupFp c4Table "b" = cxB from rfl,
      hamming_similarity_eval cxA cxB 4 4 rfl rfl]
    norm_num)

theorem c4_qac75 : qualifies c4Table 75 "a" "c" = true :=
  decide_eq_true (by
    rw [show lookupFp c4Table "a" = cxA from rfl,
      show lookupFp c4Table "c" = cxC from rfl,
      hamming_similarity_eval cxA cxC 4 4 rfl rfl]
    norm_num)

theorem c4_qad75 : qualifies c4Table 75 "a" "d" = false :=
  decide_eq_false (by
    rw [show lookupFp c4Table "a" = cxA from rfl,
      show lookupFp c4Table "d" = cxD from rfl,
      hamming_similarity_eval cxA cxD 6 4 rfl rfl]
    norm_num)

theorem c4_qab87 : qualifies c4Table (175 / 2) "a" "b" = false :=
  decide_eq_false (by
    rw [show lookupFp c4Table "a" = cxA from rfl,
      show lookupFp c4Table "b" = cxB from rfl,
      hamming_similarity_eval cxA cxB 4 4 rfl rfl]
    norm_num)

theorem c4_qac87 : qualifies c4Table (175 / 2) "a" "c" = false :=
  decide_eq_false (by
    rw [show lookupFp c4Table "a" = cxA from rfl,
      show lookupFp c4Table "c" = cxC from rfl,
      hamming_similarity_eval cxA cxC 4 4 rfl rfl]
    norm_num)

theorem c4_qad87 : qualifies c4Table (175 / 2) "a" "d" = false :=
  decide_eq_false (by
    rw [show lookupFp c4Table "a" = cxA from rfl,
      show lookupFp c4Table "d" = cxD from rfl,
      hamming_similarity_eval cxA cxD 6 4 rfl rfl]
    norm_num)

theorem c4_qbc87 : qualifies c4Table (175 / 2) "b" "c" = true :=
  decide_eq_true (by
    rw [show lookupFp c4Table "b" = cxB from rfl,
      show lookupFp c4Table "c" = cxC from rfl,
      hamming_similarity_eval cxB cxC 2 4 rfl rfl]
    norm_num)

theorem c4_qbd87 : qualifies c4Table (175 / 2) "b" "d" = true :=
  decide_eq_true (by
    rw [show lookupFp c4Table "b" = cxB from rfl,
      show lookupFp c4Table "d" = cxD from rfl,
      hamming_similarity_eval cxB cxD 2 4 rfl rfl]
    norm_num)

/-- The run at threshold 75 groups a, b, c together and leaves d alone. -/
theorem c4_run75 : group_similar_hashes c4Table 75 = [["a", "b", "c"], ["d"]] := by
  have s1 : processPair c4Table 75 ⟨[], []⟩ ("a", "b") = ⟨[["a", "b"]], ["b"]⟩ := by
    have m1 : processPair c4Table 75 ⟨[], []⟩ ("a", "b") =
        ⟨mergeFirst "a" "b" [], [] ++ ["b"]⟩ :=
      processPair_merge (by decide) c4_qab75
    have m2 : (⟨mergeFirst "a" "b" [], [] ++ ["b"]⟩ : GroupState) =
        ⟨[["a", "b"]], ["b"]⟩ := by decide
    exact m1.trans m2
  have s2 : processPair c4Table 75 ⟨[["a", "b"]], ["b"]⟩ ("a", "c") =
      ⟨[["a", "b", "c"]], ["b", "c"]⟩ := by
    have m1 : processPair c4Table 75 ⟨[["a", "b"]], ["b"]⟩ ("a", "c") =
        ⟨mergeFirst "a" "c" [["a", "b"]], ["b"] ++ ["c"]⟩ :=
      processPair_merge (by decide) c4_qac75
    have m2 : (⟨mergeFirst "a" "c" [["a", "b"]], ["b"] ++ ["c"]⟩ : GroupState) =
        ⟨[["a", "b", "c"]], ["b", "c"]⟩ := by decide
    exact m1.trans m2
  have s3 : processPair c4Table 75 ⟨[["a", "b", "c"]], ["b", "c"]⟩ ("a", "d") =
      ⟨[["a", "b", "c"]], ["b", "c"]⟩ :=
    processPair_noqual (by decide) c4_qad75
  have s4 : processPair c4Table 75 ⟨[["a", "b", "c"]], ["b", "c"]⟩ ("b", "c") =
      ⟨[["a", "b", "c"]], ["b", "c"]⟩ :=
    processPair_skip (Or.inl (by decide))
  have s5 : processPair c4Table 75 ⟨[["a", "b", "c"]], ["b", "c"]⟩ ("b", "d") =
      ⟨[["a", "b", "c"]], ["b", "c"]⟩ :=
    processPair_skip (Or.inl (by decide))
  have s6 : processPair c4Table 75 ⟨[["a", "b", "c"]], ["b", "c"]⟩ ("c", "d") =
      ⟨[["a", "b", "c"]], ["b", "c"]⟩ :=
    processPair_skip (Or.inl (by decide))
  rw [group_similar_hashes_eq,
    show c4Table.map Prod.fst = ["a", "b", "c", "d"] from rfl,
    show pairsOf ["a", "b", "c", "d"] =
      [("a", "b"), ("a", "c"), ("a", "d"), ("b", "c"), ("b", "d"), ("c", "d")]
      from rfl,
    runPairs_cons, s1, runPairs_cons, s2, runPairs_cons, s3,
    runPairs_cons, s4, runPairs_cons, s5, runPairs_cons, s6]
  decide

/-- The run at threshold 87.5 groups b, c, d together and leaves a alone. -/
theorem c4_run87 :
    group_similar_hashes c4Table (175 / 2) = [["b", "c", "d"], ["a"]] := by
  have s1 : processPair c4Table (175 / 2) ⟨[], []⟩ ("a", "b") = ⟨[], []⟩ :=
    processPair_noqual (by decide) c4_qab87
  have s2 : processPair c4Table (175 / 2) ⟨[], []⟩ ("a", "c") = ⟨[], []⟩ :=
    processPair_noqual (by decide) c4_qac87
  have s3 : processPair c4Table (175 / 2) ⟨[], []⟩ ("a", "d") = ⟨[], []⟩ :=
    processPair_noqual (by decide) c4_qad87
  have s4 : processPair c4Table (175 / 2) ⟨[], []⟩ ("b", "c") =
      ⟨[["b", "c"]], ["c"]⟩ := by
    have m1 : processPair c4Table (175 / 2) ⟨[], []⟩ ("b", "c") =
        ⟨mergeFirst "b" "c" [], [] ++ ["c"]⟩ :=
      processPair_merge (by decide) c4_qbc87
    have m2 : (⟨mergeFirst "b" "c" [], [] ++ ["c"]⟩ : GroupState) =
        ⟨[["b", "c"]], ["c"]⟩ := by decide
    exact m1.trans m2
  have s5 : processPair c4Table (175 / 2) ⟨[["b", "c"]], ["c"]⟩ ("b", "d") =
      ⟨[["b", "c", "d"]], ["c", "d"]⟩ := by
    have m1 : processPair c4Table (175 / 2) ⟨[["b", "c"]], ["c"]⟩ ("b", "d") =
        ⟨mergeFirst "b" "d" [["b", "c"]], ["c"] ++ ["d"]⟩ :=
      processPair_merge (by decide) c4_qbd87
    have m2 : (⟨mergeFirst "b" "d" [["b", "c"]], ["c"] ++ ["d"]⟩ : GroupState) =
        ⟨[["b", "c", "d"]], ["c", "d"]⟩ := by decide
    exact m1.trans m2
  have s6 : processPair c4Table (175 / 2) ⟨[["b", "c", "d"]], ["c", "d"]⟩ ("c", "d") =
      ⟨[["b", "c", "d"]], ["c", "d"]⟩ :=
    processPair_skip (Or.inl (by decide))
  rw [group_similar_hashes_eq,
    show c4Table.map Prod.fst = ["a", "b", "c", "d"] from rfl,
    show pairsOf ["a", "b", "c", "d"] =
      [("a", "b"), ("a", "c"), ("a", "d"), ("b", "c"), ("b", "d"), ("c", "d")]
      from rfl,
    runPairs_cons, s1, runPairs_cons, s2, runPairs_cons, s3,
    runPairs_cons, s4, runPairs_cons, s5, runPairs_cons, s6]
  decide

/-- C4 counterexample: on `c4Table`, raising the threshold from 75 to 87.5
moves image "d" from a singleton Group into a Group of three — an image
ends up in a strictly larger Group under the higher threshold, refuting the
claimed monotonicity. -/
theorem c4_counterexample :
    (75 : ℚ) ≤ 175 / 2 ∧
    (∃ g1 ∈ group_similar_hashes c4Table 75, "d" ∈ g1 ∧ g1.length = 1) ∧
    (∃ g2 ∈ group_similar_hashes c4Table (175 / 2), "d" ∈ g2 ∧ g2.length = 3) := by
  refine ⟨by norm_num, ?_, ?_⟩
  · rw [c4_run75]
    exact ⟨["d"], by simp, by simp, rfl⟩
  · rw [c4_run87]
    exact ⟨["b", "c", "d"], by simp, by simp, rfl⟩

/-- C4 as amended: for a fixed Fingerprint Table, raising the threshold can
only shrink the set of pairs that qualify for merging — any pair meeting the
higher threshold also meets the lower one.  The original per-image claim
(that no image ends up in a strictly larger Group under the higher
threshold) is refuted by `c4_counterexample`. -/
theorem c4_amended_qualify_antitone (tbl : FingerprintTable) (t1 t2 : ℚ)
    (a b : ImgRef) (h12 : t1 ≤ t2) (hq : qualifies tbl t2 a b = true) :
    qualifies tbl t1 a b = true :=
  decide_eq_true (le_trans h12 (of_decide_eq_true hq))

/-- Witness for the amended C4: the pair (b, c) qualifies at 87.5, hence at
75. -/
theorem c4_amended_qualify_antitone_witness :
    qualifies c4Table 75 "b" "c" = true :=
  c4_amended_qualify_antitone c4Table 75 (175 / 2) "b" "c" (by norm_num) c4_qbc87

/-! ## Claim C3: identical fingerprints always land in one group -/

theorem hammingDistance_self (f : Fingerprint) : hammingDistance f f = 0 := by
  unfold hammingDistance
  have hrow : ∀ row : List Bool,
      (row.zip row).filter (fun p => p.1 != p.2) = [] := by
    intro row
    induction row with
    | nil => rfl
    | cons v vs ih => simp [List.zip_cons_cons, List.filter_cons, ih]
  have : ∀ l : List (List Bool),
      ((l.zip l).map
        (fun r => ((r.1.zip r.2).filter (fun p => p.1 != p.2)).length)).sum = 0 := by
    intro l
    induction l with
    | nil => rfl
    | cons r rs ih =>
        simp only [List.zip_cons_cons, List.map_cons, List.sum_cons, ih,
          add_zero, hrow r, List.length_nil]
  exact this f.hash

/-- Self-similarity is exactly 100 percent. -/
theorem hamming_similarity_self (f : Fingerprint) :
    hamming_similarity f f = 100 := by
  simp only [hamming_similarity, hammingDistance_self, Nat.cast_zero, zero_div,
    sub_zero, mul_one]

/-- The merge test only depends on the looked-up fingerprints. -/
theorem qualifies_congr (tbl : FingerprintTable) (t : ℚ) (c : ImgRef)
    {a b : ImgRef} (h : lookupFp tbl a = lookupFp tbl b) :
    qualifies tbl t c a = qualifies tbl t c b := by
  unfold qualifies
  rw [h]

/-- Two distinct members of a list occur in one of the two orders. -/
theorem mem_split_pair {l : List ImgRef} {a b : ImgRef} (ha : a ∈ l)
    (hb : b ∈ l) (hne : a ≠ b) :
    (∃ u v w, l = u ++ a :: v ++ b :: w) ∨
    (∃ u v w, l = u ++ b :: v ++ a :: w) := by
  induction l with
  | nil => cases ha
  | cons x xs ih =>
      by_cases hxa : x = a
      · subst hxa
        have hbxs : b ∈ xs := by
          rcases List.mem_cons.mp hb with h | h
          · exact absurd h.symm hne
          · exact h
        obtain ⟨s, t2, rfl⟩ := List.append_of_mem hbxs
        exact Or.inl ⟨[], s, t2, rfl⟩
      · by_cases hxb : x = b
        · subst hxb
          have haxs : a ∈ xs := by
            rcases List.mem_cons.mp ha with h | h
            · exact absurd h hne
            · exact h
          obtain ⟨s, t2, rfl⟩ := List.append_of_mem haxs
          exact Or.inr ⟨[], s, t2, rfl⟩
        · have ha2 : a ∈ xs := by
            rcases List.mem_cons.mp ha with h | h
            · exact absurd h.symm hxa
            · exact h
          have hb2 : b ∈ xs := by
            rcases List.mem_cons.mp hb with h | h
            · exact absurd h.symm hxb
            · exact h
          rcases ih ha2 hb2 with ⟨u, v, w, rfl⟩ | ⟨u, v, w, rfl⟩
          · exact Or.inl ⟨x :: u, v, w, rfl⟩
          · exact Or.inr ⟨x :: u, v, w, rfl⟩

/-- A block whose first element is already used does nothing. -/
theorem c3_block_skip (tbl : FingerprintTable) (t : ℚ) (c : ImgRef) :
    ∀ (zs : List ImgRef) (st : GroupState), c ∈ st.used →
    runPairs tbl t (zs.map (fun z => (c, z))) st = st := by
  intro zs
  induction zs with
  | nil => intro st _; rfl
  | cons z zs ih =>
      intro st hc
      rw [List.map_cons, runPairs_cons, processPair_skip (Or.inl hc)]
      exact ih st hc

/-- An element that never occurs as a second component stays out of the
used set through a block. -/
theorem c3_seg_used (tbl : FingerprintTable) (t : ℚ) (c x : ImgRef) :
    ∀ (zs : List ImgRef) (st : GroupState), (∀ z ∈ zs, z ≠ x) →
    x ∉ st.used →
    x ∉ (runPairs tbl t (zs.map (fun z => (c, z))) st).used := by
  intro zs
  induction zs with
  | nil => intro st _ hx; exact hx
  | cons z zs ih =>
      intro st hz hx
      rw [List.map_cons, runPairs_cons]
      refine ih _ (fun z2 hz2 => hz z2 (List.mem_cons_of_mem _ hz2)) ?_
      rcases processPair_cases tbl t st (c, z) with hcase | ⟨_, _, hcase⟩ <;>
        rw [hcase]
      · exact hx
      · intro hmem
        rcases List.mem_append.mp hmem with h | h
        · exact hx h
        · exact hz z (List.mem_cons_self _ _) (List.mem_singleton.mp h).symm

/-- An element that is untouched (not used, in no group) stays untouched
through a block, provided it never appears as a second component of a
qualifying pair of the block and is not the block's first element. -/
theorem c3_seg_ab (tbl : FingerprintTable) (t : ℚ) (c x : ImgRef)
    (hcx : c ≠ x) :
    ∀ (zs : List ImgRef) (st : GroupState),
    (∀ z ∈ zs, z ≠ x ∨ qualifies tbl t c z = false) →
    x ∉ st.used → x ∉ st.groups.flatten →
    x ∉ (runPairs tbl t (zs.map (fun z => (c, z))) st).used ∧
    x ∉ (runPairs tbl t (zs.map (fun z => (c, z))) st).groups.flatten := by
  intro zs
  induction zs with
  | nil => intro st _ hu hf; exact ⟨hu, hf⟩
  | cons z zs ih =>
      intro st hz hu hf
      rw [List.map_cons, runPairs_cons]
      rcases processPair_cases tbl t st (c, z) with hcase | ⟨hnu, hq, hcase⟩
      · rw [hcase]
        exact ih st (fun z2 hz2 => hz z2 (List.mem_cons_of_mem _ hz2)) hu hf
      · have hq2 : qualifies tbl t c z = true := hq
        have hzx : z ≠ x := by
          rcases hz z (List.mem_cons_self _ _) with h | h
          · exact h
          · rw [h] at hq2; cases hq2
        rw [hcase]
        refine ih _ (fun z2 hz2 => hz z2 (List.mem_cons_of_mem _ hz2)) ?_ ?_
        · intro hmem
          rcases List.mem_append.mp hmem with h | h
          · exact hu h
          · exact hzx (List.mem_singleton.mp h).symm
        · intro hmem
          rcases mergeFirst_flatten_sub hmem with h | h | h
          · exact hcx h.symm
          · exact hzx h.symm
          · exact hf h

/-- In the block whose first element is `a`, the pair (a, b) merges a and b
into one group, which then persists. -/
theorem c3_block_a (tbl : FingerprintTable) (t : ℚ) (a b : ImgRef)
    (hqab : qualifies tbl t a b = true) :
    ∀ (zs1 zs2 : List ImgRef) (st : GroupState),
    (∀ z ∈ zs1, z ≠ a) → (∀ z ∈ zs1, z ≠ b) →
    a ∉ st.used → b ∉ st.used →
    ∃ g ∈ (runPairs tbl t ((zs1 ++ b :: zs2).map (fun z => (a, z))) st).groups,
      a ∈ g ∧ b ∈ g := by
  intro zs1 zs2 st hza hzb hau hbu
  rw [List.map_append, runPairs_append]
  set stA := runPairs tbl t (zs1.map (fun z => (a, z))) st with hstA
  have hauA : a ∉ stA.used := c3_seg_used tbl t a a zs1 st hza hau
  have hbuA : b ∉ stA.used := c3_seg_used tbl t a b zs1 st hzb hbu
  rw [List.map_cons, runPairs_cons]
  have hstep : processPair tbl t stA (a, b) =
      ⟨mergeFirst a b stA.groups, stA.used ++ [b]⟩ :=
    processPair_merge (fun h => h.elim hauA hbuA) hqab
  rw [hstep]
  obtain ⟨g, hg, hag, hbg⟩ := mergeFirst_mem_both a b stA.groups
  obtain ⟨g2, hg2, hsub⟩ := grow_run tbl t (zs2.map (fun z => (a, z)))
    ⟨mergeFirst a b stA.groups, stA.used ++ [b]⟩ hg
  exact ⟨g2, hg2, hsub hag, hsub hbg⟩

/-- In a block whose first element `c` is neither `a` nor `b`, with `a` and
`b` carrying identical fingerprints and both untouched: either the block
merges `a` and `b` into one group (when a pair (c, a) qualifies, the later
pair (c, b) drags `b` into the very group that received `a`), or the block
leaves both untouched. -/
theorem c3_block_c (tbl : FingerprintTable) (t : ℚ) (a b c : ImgRef)
    (hsim : lookupFp tbl a = lookupFp tbl b) :
    ∀ (zs1 zs2a zs2b : List ImgRef) (st : GroupState),
    c ≠ a → c ≠ b → a ≠ b →
    (∀ z ∈ zs1, z ≠ a) → (∀ z ∈ zs1, z ≠ b) → (∀ z ∈ zs1, z ≠ c) →
    (∀ z ∈ zs2a, z ≠ a) → (∀ z ∈ zs2a, z ≠ b) → (∀ z ∈ zs2a, z ≠ c) →
    (∀ z ∈ zs2b, z ≠ a) → (∀ z ∈ zs2b, z ≠ b) →
    GoodState st →
    (∀ w ∈ st.groups.flatten, w ∉ st.used → w ∉ zs1 ∧ w ∉ zs2a) →
    a ∉ st.used → b ∉ st.used →
    a ∉ st.groups.flatten → b ∉ st.groups.flatten →
    (∃ g ∈ (runPairs tbl t
        ((zs1 ++ a :: zs2a ++ b :: zs2b).map (fun z => (c, z))) st).groups,
      a ∈ g ∧ b ∈ g) ∨
    (a ∉ (runPairs tbl t
        ((zs1 ++ a :: zs2a ++ b :: zs2b).map (fun z => (c, z))) st).used ∧
     b ∉ (runPairs tbl t
        ((zs1 ++ a :: zs2a ++ b :: zs2b).map (fun z => (c, z))) st).used ∧
     a ∉ (runPairs tbl t
        ((zs1 ++ a :: zs2a ++ b :: zs2b).map (fun z => (c, z))) st).groups.flatten ∧
     b ∉ (runPairs tbl t
        ((zs1 ++ a :: zs2a ++ b :: zs2b).map (fun z => (c, z))) st).groups.flatten) := by
  intro zs1 zs2a zs2b st hca hcb hab hz1a hz1b hz1c hz2a hz2b hz2c hz3a hz3b
    hG hF hau hbu haf hbf
  by_cases hcu : c ∈ st.used
  · rw [c3_block_skip tbl t c _ st hcu]
    exact Or.inr ⟨hau, hbu, haf, hbf⟩
  by_cases hq : qualifies tbl t c a = true
  · -- the pair (c, a) will merge; (c, b) follows it into the same group
    set stA := runPairs tbl t (zs1.map (fun z => (c, z))) st with hstA
    have hc1 : c ∉ zs1 := fun hmem => hz1c c hmem rfl
    obtain ⟨GA, TA⟩ := blockRun_inv tbl t c zs1 st hc1 hG
      (fun w hw hnu => (hF w hw hnu).1)
    have hcuA : c ∉ stA.used := c3_seg_used tbl t c c zs1 st hz1c hcu
    obtain ⟨hauA, hafA⟩ := c3_seg_ab tbl t c a hca zs1 st
      (fun z hz => Or.inl (hz1a z hz)) hau haf
    obtain ⟨hbuA, hbfA⟩ := c3_seg_ab tbl t c b hcb zs1 st
      (fun z hz => Or.inl (hz1b z hz)) hbu hbf
    have hstep : processPair tbl t stA (c, a) =
        ⟨mergeFirst c a stA.groups, stA.used ++ [a]⟩ :=
      processPair_merge (fun h => h.elim hcuA hauA) hq
    set stB : GroupState := ⟨mergeFirst c a stA.groups, stA.used ++ [a]⟩ with hstB
    have e1 : runPairs tbl t
        (((zs1 ++ a :: zs2a) ++ b :: zs2b).map (fun z => (c, z))) st =
        runPairs tbl t ((b :: zs2b).map (fun z => (c, z)))
          (runPairs tbl t ((a :: zs2a).map (fun z => (c, z))) stA) := by
      rw [hstA, List.map_append, runPairs_append, List.map_append, runPairs_append]
    have e2 : runPairs tbl t ((a :: zs2a).map (fun z => (c, z))) stA =
        runPairs tbl t (zs2a.map (fun z => (c, z))) stB := by
      rw [List.map_cons, runPairs_cons, hstep]
    rw [e1, e2]
    have GB : GoodState stB :=
      ⟨mergeFirst_wf c a GA.1, mergeFirst_disjoint hafA GA.2⟩
    have hcuB : c ∉ stB.used := by
      intro hmem
      rcases List.mem_append.mp hmem with h | h
      · exact hcuA h
      · exact hca (List.mem_singleton.mp h)
    have hbuB : b ∉ stB.used := by
      intro hmem
      rcases List.mem_append.mp hmem with h | h
      · exact hbuA h
      · exact hab ((List.mem_singleton.mp h).symm)
    have hbfB : b ∉ stB.groups.flatten := by
      intro hmem
      rcases mergeFirst_flatten_sub hmem with h | h | h
      · exact hcb h.symm
      · exact hab h.symm
      · exact hbfA h
    have hFB : ∀ w ∈ stB.groups.flatten, w ∉ stB.used → w ∉ zs2a := by
      intro w hw hnu
      rcases mergeFirst_flatten_sub hw with h | h | h
      · subst h
        exact fun hmem => hz2c w hmem rfl
      · subst h
        exact absurd (List.mem_append.mpr (Or.inr (List.mem_singleton.mpr rfl))) hnu
      · have hnuA : w ∉ stA.used := fun hmem =>
          hnu (List.mem_append.mpr (Or.inl hmem))
        rcases TA w h hnuA with ⟨hmem0, hnu0⟩ | rfl
        · exact (hF w hmem0 hnu0).2
        · exact fun hmem => hz2c w hmem rfl
    have hgB : ∃ g ∈ stB.groups, c ∈ g ∧ a ∈ g := by
      obtain ⟨g, hg, hcg, hag⟩ := mergeFirst_mem_both c a stA.groups
      exact ⟨g, hg, hcg, hag⟩
    set stC := runPairs tbl t (zs2a.map (fun z => (c, z))) stB with hstC
    have hc2 : c ∉ zs2a := fun hmem => hz2c c hmem rfl
    obtain ⟨GC, TC⟩ := blockRun_inv tbl t c zs2a stB hc2 GB hFB
    have hcuC : c ∉ stC.used := c3_seg_used tbl t c c zs2a stB hz2c hcuB
    obtain ⟨hbuC, hbfC⟩ := c3_seg_ab tbl t c b hcb zs2a stB
      (fun z hz => Or.inl (hz2b z hz)) hbuB hbfB
    obtain ⟨gB, hgBmem, hcgB, hagB⟩ := hgB
    obtain ⟨gC, hgCmem, hsubC⟩ := grow_run tbl t (zs2a.map (fun z => (c, z))) stB hgBmem
    have hqb : qualifies tbl t c b = true := by
      rw [← qualifies_congr tbl t c hsim]
      exact hq
    have hstep2 : processPair tbl t stC (c, b) =
        ⟨mergeFirst c b stC.groups, stC.used ++ [b]⟩ :=
      processPair_merge (fun h => h.elim hcuC hbuC) hqb
    have e3 : runPairs tbl t ((b :: zs2b).map (fun z => (c, z))) stC =
        runPairs tbl t (zs2b.map (fun z => (c, z)))
          ⟨mergeFirst c b stC.groups, stC.used ++ [b]⟩ := by
      rw [List.map_cons, runPairs_cons, hstep2]
    rw [e3]
    obtain ⟨g2, hg2, hsubg2, hcg2, hbg2⟩ :=
      mergeFirst_extends hgCmem (hsubC hcgB) hbfC GC.2
    obtain ⟨g3, hg3, hsub3⟩ := grow_run tbl t (zs2b.map (fun z => (c, z)))
      ⟨mergeFirst c b stC.groups, stC.used ++ [b]⟩ hg2
    exact Or.inl ⟨g3, hg3, hsub3 (hsubg2 (hsubC hagB)), hsub3 hbg2⟩
  · -- no pair (c, a) qualifies, hence no pair (c, b) either: untouched
    have hqa : qualifies tbl t c a = false := Bool.eq_false_iff.mpr hq
    have hqb : qualifies tbl t c b = false := by
      rw [← qualifies_congr tbl t c hsim]
      exact hqa
    have hconda : ∀ z ∈ zs1 ++ a :: zs2a ++ b :: zs2b,
        z ≠ a ∨ qualifies tbl t c z = false := by
      intro z hz
      rcases List.mem_append.mp hz with h | h
      · rcases List.mem_append.mp h with h2 | h2
        · exact Or.inl (hz1a z h2)
        · rcases List.mem_cons.mp h2 with rfl | h3
          · exact Or.inr hqa
          · exact Or.inl (hz2a z h3)
      · rcases List.mem_cons.mp h with rfl | h2
        · exact Or.inl (fun hh => hab hh.symm)
        · exact Or.inl (hz3a z h2)
    have hcondb : ∀ z ∈ zs1 ++ a :: zs2a ++ b :: zs2b,
        z ≠ b ∨ qualifies tbl t c z = false := by
      intro z hz
      rcases List.mem_append.mp hz with h | h
      · rcases List.mem_append.mp h with h2 | h2
        · exact Or.inl (hz1b z h2)
        · rcases List.mem_cons.mp h2 with rfl | h3
          · exact Or.inl hab
          · exact Or.inl (hz2b z h3)
      · rcases List.mem_cons.mp h with rfl | h2
        · exact Or.inr hqb
        · exact Or.inl (hz3b z h2)
    obtain ⟨hu1, hf1⟩ := c3_seg_ab tbl t c a hca _ st hconda hau haf
    obtain ⟨hu2, hf2⟩ := c3_seg_ab tbl t c b hcb _ st hcondb hbu hbf
    exact Or.inr ⟨hu1, hu2, hf1, hf2⟩

/-- Distinctness facts extracted from a duplicate-free split list. -/
theorem split_nodup_facts {u v w : List ImgRef} {a b : ImgRef}
    (h : ((u ++ a :: v) ++ b :: w).Nodup) :
    a ≠ b ∧ a ∉ u ∧ a ∉ v ∧ a ∉ w ∧ b ∉ u ∧ b ∉ v ∧ b ∉ w := by
  rcases List.nodup_append.mp h with ⟨h1, h2, hdisj⟩
  rcases List.nodup_append.mp h1 with ⟨_, hav, hdisj2⟩
  rcases List.nodup_cons.mp hav with ⟨havv, _⟩
  rcases List.nodup_cons.mp h2 with ⟨hbw, _⟩
  have hamem : a ∈ u ++ a :: v :=
    List.mem_append.mpr (Or.inr (List.mem_cons_self _ _))
  refine ⟨?_, ?_, havv, ?_, ?_, ?_, hbw⟩
  · exact fun hh => hdisj hamem (hh ▸ List.mem_cons_self _ _)
  · exact fun hh => hdisj2 hh (List.mem_cons_self _ _)
  · exact fun hh => hdisj hamem (List.mem_cons_of_mem _ hh)
  · exact fun hh =>
      hdisj (List.mem_append.mpr (Or.inl hh)) (List.mem_cons_self _ _)
  · exact fun hh =>
      hdisj (List.mem_append.mpr (Or.inr (List.mem_cons_of_mem _ hh)))
        (List.mem_cons_self _ _)

/-- Running the whole pair loop over a duplicate-free item list containing
`a` before `b`, from a state in which both are untouched: the loop groups
`a` and `b` together. -/
theorem c3_outer (tbl : FingerprintTable) (t : ℚ) (a b : ImgRef)
    (hsim : lookupFp tbl a = lookupFp tbl b)
    (hqab : qualifies tbl t a b = true) :
    ∀ (I1 I2a I2b : List ImgRef) (st : GroupState),
    ((I1 ++ a :: I2a) ++ b :: I2b).Nodup →
    GoodState st →
    (∀ w ∈ st.groups.flatten, w ∉ st.used →
      w ∉ ((I1 ++ a :: I2a) ++ b :: I2b).tail) →
    a ∉ st.used → b ∉ st.used →
    a ∉ st.groups.flatten → b ∉ st.groups.flatten →
    ∃ g ∈ (runPairs tbl t (pairsOf ((I1 ++ a :: I2a) ++ b :: I2b)) st).groups,
      a ∈ g ∧ b ∈ g := by
  intro I1
  induction I1 with
  | nil =>
      intro I2a I2b st hnd hG hF hau hbu haf hbf
      obtain ⟨hab, _, haI2a, _, _, hbI2a, _⟩ :=
        split_nodup_facts (u := []) hnd
      have heq : (([] ++ a :: I2a) ++ b :: I2b : List ImgRef) =
          a :: (I2a ++ b :: I2b) := by simp
      rw [heq]
      simp only [pairsOf]
      rw [runPairs_append]
      obtain ⟨g, hg, hag, hbg⟩ := c3_block_a tbl t a b hqab I2a I2b st
        (fun z hz hza => haI2a (hza ▸ hz)) (fun z hz hzb => hbI2a (hzb ▸ hz))
        hau hbu
      obtain ⟨g2, hg2, hsub⟩ :=
        grow_run tbl t (pairsOf (I2a ++ b :: I2b)) _ hg
      exact ⟨g2, hg2, hsub hag, hsub hbg⟩
  | cons x I1' ih =>
      intro I2a I2b st hnd hG hF hau hbu haf hbf
      have heq : (((x :: I1') ++ a :: I2a) ++ b :: I2b : List ImgRef) =
          x :: ((I1' ++ a :: I2a) ++ b :: I2b) := by simp
      rw [heq] at hnd hF ⊢
      simp only [List.tail_cons] at hF
      rcases List.nodup_cons.mp hnd with ⟨hxni, hnd2⟩
      obtain ⟨hab, haI1, haI2a, haI2b, hbI1, hbI2a, hbI2b⟩ :=
        split_nodup_facts hnd2
      have hmema : a ∈ (I1' ++ a :: I2a) ++ b :: I2b :=
        List.mem_append.mpr (Or.inl
          (List.mem_append.mpr (Or.inr (List.mem_cons_self _ _))))
      have hmemb : b ∈ (I1' ++ a :: I2a) ++ b :: I2b :=
        List.mem_append.mpr (Or.inr (List.mem_cons_self _ _))
      have hxa : x ≠ a := fun h => hxni (h ▸ hmema)
      have hxb : x ≠ b := fun h => hxni (h ▸ hmemb)
      simp only [pairsOf]
      rw [runPairs_append]
      set st1 := runPairs tbl t
        (((I1' ++ a :: I2a) ++ b :: I2b).map (fun z => (x, z))) st with hst1
      obtain ⟨G1, T1⟩ := blockRun_inv tbl t x ((I1' ++ a :: I2a) ++ b :: I2b)
        st hxni hG hF
      have fate := c3_block_c tbl t a b x hsim I1' I2a I2b st hxa hxb hab
        (fun z hz h => haI1 (h ▸ hz)) (fun z hz h => hbI1 (h ▸ hz))
        (fun z hz h => hxni (h ▸ (List.mem_append.mpr (Or.inl
          (List.mem_append.mpr (Or.inl hz))))))
        (fun z hz h => haI2a (h ▸ hz)) (fun z hz h => hbI2a (h ▸ hz))
        (fun z hz h => hxni (h ▸ (List.mem_append.mpr (Or.inl
          (List.mem_append.mpr (Or.inr (List.mem_cons_of_mem _ hz)))))))
        (fun z hz h => haI2b (h ▸ hz)) (fun z hz h => hbI2b (h ▸ hz))
        hG
        (fun w2 hw2 hnu => ⟨fun hm => hF w2 hw2 hnu
            (List.mem_append.mpr (Or.inl (List.mem_append.mpr (Or.inl hm)))),
          fun hm => hF w2 hw2 hnu (List.mem_append.mpr (Or.inl
            (List.mem_append.mpr (Or.inr (List.mem_cons_of_mem _ hm)))))⟩)
        hau hbu haf hbf
      rcases fate with ⟨g, hg, hag, hbg⟩ | ⟨hau1, hbu1, haf1, hbf1⟩
      · obtain ⟨g2, hg2, hsub⟩ :=
          grow_run tbl t (pairsOf ((I1' ++ a :: I2a) ++ b :: I2b)) st1 hg
        exact ⟨g2, hg2, hsub hag, hsub hbg⟩
      · refine ih I2a I2b st1 hnd2 G1 ?_ hau1 hbu1 haf1 hbf1
        intro w2 hw2 hnu
        rcases T1 w2 hw2 hnu with ⟨hm0, hn0⟩ | rfl
        · exact fun hm => hF w2 hm0 hn0 (List.tail_subset _ hm)
        · exact fun hm => hxni (List.tail_subset _ hm)

/-- C3: identical fingerprints always yield Similarity Percentage exactly
100, and two Image References carrying bitwise-identical Fingerprints are
always placed by `group_similar_hashes` in the same Group for any
threshold ≤ 100. -/
theorem c3_identical_images_grouped (tbl : FingerprintTable) (t : ℚ)
    (a b : ImgRef) (hnd : (tbl.map Prod.fst).Nodup)
    (ha : a ∈ tbl.map Prod.fst) (hb : b ∈ tbl.map Prod.fst) (hne : a ≠ b)
    (hsim : lookupFp tbl a = lookupFp tbl b) (ht : t ≤ 100) :
    (∀ f : Fingerprint, hamming_similarity f f = 100) ∧
    ∃ g ∈ group_similar_hashes tbl t, a ∈ g ∧ b ∈ g := by
  refine ⟨hamming_similarity_self, ?_⟩
  have hq : qualifies tbl t a b = true := by
    refine decide_eq_true ?_
    rw [hsim, hamming_similarity_self]
    exact ht
  have hqba : qualifies tbl t b a = true := by
    refine decide_eq_true ?_
    rw [← hsim, hamming_similarity_self]
    exact ht
  rcases mem_split_pair ha hb hne with ⟨u, v, w, heq⟩ | ⟨u, v, w, heq⟩
  · have hrun := c3_outer tbl t a b hsim hq u v w ⟨[], []⟩
      (by rw [← heq]; exact hnd) goodState_nil
      (by intro w2 hw2; simp at hw2) (by simp) (by simp)
      (by simp) (by simp)
    rw [group_similar_hashes_eq, heq]
    obtain ⟨g, hg, hag, hbg⟩ := hrun
    exact ⟨g, List.mem_append.mpr (Or.inl hg), hag, hbg⟩
  · have hrun := c3_outer tbl t b a hsim.symm hqba u v w ⟨[], []⟩
      (by rw [← heq]; exact hnd) goodState_nil
      (by intro w2 hw2; simp at hw2) (by simp) (by simp)
      (by simp) (by simp)
    rw [group_similar_hashes_eq, heq]
    obtain ⟨g, hg, hbg, hag⟩ := hrun
    exact ⟨g, List.mem_append.mpr (Or.inl hg), hag, hbg⟩

/-- Witness for C3 on a two-image table with identical fingerprints at
threshold 96. -/
theorem c3_identical_images_grouped_witness :
    (∀ f : Fingerprint, hamming_similarity f f = 100) ∧
    ∃ g ∈ group_similar_hashes c3Table 96, "a" ∈ g ∧ "b" ∈ g :=
  c3_identical_images_grouped c3Table 96 "a" "b" (by decide) (by decide)
    (by decide) (by decide) rfl (by norm_num)

end FishScripts
